import Mathlib

/-!
# Two threads incrementing a shared atomic counter

A shallow embedding of `code/synchronization/thread.cpp`.

The program declares `std::atomic<int> counter(0)`, starts two threads `t1` and
`t2` that both run `incrementCounter` (a loop of 1000000 executions of
`counter++`), joins both, prints `Counter value: <counter>` and returns 0.

`counter++` on a `std::atomic<int>` is a sequentially consistent
read-modify-write, so an execution of the program is an interleaving of the
steps of `main`, `t1` and `t2`.  Executions are driven by a schedule, a list
naming the actor that moves next; a schedule that names an actor that cannot
move (a thread that is not running, a `join` on a thread that has not finished)
is not an execution and `run` answers `none` for it.

`int` is taken to be 32 bits wide; arithmetic on it is modelled on `Int` with an
explicit reduction `wrap32`.

The program of the source is modelled at two granularities.  In `State`,
`step` and `run` one iteration of the loop (the loop test, `counter++` and
`i++`) is one step of its thread, the loop variable being local to the thread.
In `StmtState`, `stmtStep` and `stmtRun` the loop test, `counter++` and `i++`
are three steps, and the other thread can move between any two of them.
`stmt_refines` shows that every execution of `stmtRun` stands, through
`abstraction`, for an execution of `run` with the same counter, the same
position of `main`, the same output and the same number of increments.

Two more programs are modelled: the variant with the plain `int` counter that
the source keeps in a comment (`RacyState`, `racyStep`, `racyRun`), and the
counter and entry point of the specification, with any number of workers and
any number of increments per worker (`PoolState`, `poolStep`, `poolRun`), which
the source does not contain.
-/

namespace ThreadCounter

/-! ## Machine integers -/

/-- The least value of a 32-bit signed `int`. -/
def INT_MIN : Int := -2147483648

/-- The greatest value of a 32-bit signed `int`. -/
def INT_MAX : Int := 2147483647

/-- Reduction to the 32-bit two's-complement range, the value an `int` holds
after an arithmetic operation whose mathematical result is `x`. -/
def wrap32 (x : Int) : Int := (x + 2147483648) % 4294967296 - 2147483648

/-! ## The sequential function `incrementCounter` -/

/-- The loop `for (int i = 0; i < 1000000; i++) { counter++; }` from the loop
test onwards, as a function from the values of `i` and `counter` to the value of
`counter` when the loop is left. -/
def incrementCounter.loop (i counter : Int) : Int :=
  if i < 1000000 then incrementCounter.loop (wrap32 (i + 1)) (wrap32 (counter + 1))
  else counter
termination_by (1000000 - i).toNat
decreasing_by
  simp only [wrap32]
  omega

/-- The effect on `counter` of `void incrementCounter()` run with no other
thread touching the counter. -/
def incrementCounter (counter : Int) : Int := incrementCounter.loop 0 counter

/-! ## Threads -/

/-- The life cycle of a `std::thread`: constructed but not yet created (its
declaration in `main` has not been reached), running its function, or returned
from it. -/
inductive Phase
  | notStarted
  | running
  | finished
  deriving DecidableEq

/-- A thread running `incrementCounter`: its phase and its loop variable `i`. -/
structure Thread where
  phase : Phase
  i : Int
  deriving DecidableEq

/-- One step of a thread inside `incrementCounter`, given the shared counter:
the loop test `i < 1000000`; when it holds, the body `counter++` (one atomic
read-modify-write) and then `i++`; when it fails, the function returns and the
thread finishes.  The result is the new counter and the new thread.  The three
statements are separate steps in `incrementCounterStmt`. -/
def incrementCounterStep (counter : Int) (t : Thread) : Int × Thread :=
  if t.i < 1000000 then
    (wrap32 (counter + 1), { t with i := wrap32 (t.i + 1) })
  else
    (counter, { t with phase := Phase.finished })

/-! ## The program -/

/-- The statements of `main`, named by the next one to execute. -/
inductive MainPc
  | spawnT1
  | spawnT2
  | joinT1
  | joinT2
  | print
  | ret
  | exited
  deriving DecidableEq

/-- The state of the process: the global `counter`, the threads `t1` and `t2`,
the position of `main`, the text written to standard output, and the exit
status once `main` has returned. -/
structure State where
  counter : Int
  t1 : Thread
  t2 : Thread
  pc : MainPc
  out : String
  exitStatus : Option Int
  deriving DecidableEq

/-- The state at the start of `main`: `std::atomic<int> counter(0)` has been
initialised, no thread exists, nothing has been written. -/
def init : State :=
  { counter := 0
    t1 := { phase := Phase.notStarted, i := 0 }
    t2 := { phase := Phase.notStarted, i := 0 }
    pc := MainPc.spawnT1
    out := ""
    exitStatus := none }

/-- The three threads of execution of the process. -/
inductive Actor
  | main
  | t1
  | t2
  deriving DecidableEq

/-- One step of `main`.  `std::thread t(incrementCounter)` starts the thread at
the loop initialisation `int i = 0`; `t.join()` can only be passed when the
thread has finished; the output statement reads the counter and writes the
line; `return 0` sets the exit status. -/
def mainStep (s : State) : Option State :=
  match s.pc with
  | MainPc.spawnT1 =>
      some { s with t1 := { phase := Phase.running, i := 0 }, pc := MainPc.spawnT2 }
  | MainPc.spawnT2 =>
      some { s with t2 := { phase := Phase.running, i := 0 }, pc := MainPc.joinT1 }
  | MainPc.joinT1 =>
      if s.t1.phase = Phase.finished then some { s with pc := MainPc.joinT2 } else none
  | MainPc.joinT2 =>
      if s.t2.phase = Phase.finished then some { s with pc := MainPc.print } else none
  | MainPc.print =>
      some { s with
        out := s.out ++ "Counter value: " ++ toString s.counter ++ "\n"
        pc := MainPc.ret }
  | MainPc.ret =>
      some { s with exitStatus := some 0, pc := MainPc.exited }
  | MainPc.exited => none

/-- One step of the process by the given actor, `none` when that actor cannot
move in this state. -/
def step (a : Actor) (s : State) : Option State :=
  match a with
  | Actor.main => mainStep s
  | Actor.t1 =>
      if s.t1.phase = Phase.running then
        some { s with
          counter := (incrementCounterStep s.counter s.t1).1
          t1 := (incrementCounterStep s.counter s.t1).2 }
      else none
  | Actor.t2 =>
      if s.t2.phase = Phase.running then
        some { s with
          counter := (incrementCounterStep s.counter s.t2).1
          t2 := (incrementCounterStep s.counter s.t2).2 }
      else none

/-- The execution of a schedule from a state. -/
def run : List Actor → State → Option State
  | [], s => some s
  | a :: rest, s =>
      match step a s with
      | none => none
      | some s' => run rest s'

/-- Whether the step of actor `a` in state `s` executes `counter++`. -/
def performsIncrement (a : Actor) (s : State) : Bool :=
  match a with
  | Actor.main => false
  | Actor.t1 => decide (s.t1.phase = Phase.running ∧ s.t1.i < 1000000)
  | Actor.t2 => decide (s.t2.phase = Phase.running ∧ s.t2.i < 1000000)

/-- The number of executions of `counter++` along the execution of a schedule
from a state. -/
def increments : List Actor → State → Nat
  | [], _ => 0
  | a :: rest, s =>
      match step a s with
      | none => 0
      | some s' => (if performsIncrement a s then 1 else 0) + increments rest s'

/-- The number of executions of `counter++` by the thread `who` along the
execution of a schedule from a state. -/
def incrementsBy (who : Actor) : List Actor → State → Nat
  | [], _ => 0
  | a :: rest, s =>
      match step a s with
      | none => 0
      | some s' =>
          (if a = who ∧ performsIncrement a s = true then 1 else 0) + incrementsBy who rest s'

/-- Whether some actor can move in the state. -/
def canMove (s : State) : Bool :=
  (step Actor.main s).isSome || (step Actor.t1 s).isSome || (step Actor.t2 s).isSome

/-- Whether `main` has passed both `t1.join()` and `t2.join()`. -/
def bothJoined (s : State) : Bool :=
  match s.pc with
  | MainPc.print => true
  | MainPc.ret => true
  | MainPc.exited => true
  | _ => false

/-- The atomic load of the counter: the value read, and the state after the
read. -/
def read (s : State) : Int × State := (s.counter, s)

/-- The values returned by `n` consecutive loads of the counter, and the state
after them. -/
def readMany : Nat → State → List Int × State
  | 0, s => ([], s)
  | n + 1, s =>
      let r := read s
      let rs := readMany n r.2
      (r.1 :: rs.1, rs.2)

/-! ## The invariant of the program -/

/-- The line the program writes. -/
def expectedOutput : String := "Counter value: 2000000\n"

/-- What holds in every reachable state: the loop variables stay within
`0 .. 1000000`, the counter is their sum, a thread that has not started has
`i = 0`, a finished thread has `i = 1000000`, and the position of `main` fixes
the phases of the threads, the output so far and the exit status. -/
def Inv (s : State) : Prop :=
  0 ≤ s.t1.i ∧ s.t1.i ≤ 1000000 ∧ 0 ≤ s.t2.i ∧ s.t2.i ≤ 1000000 ∧
  s.counter = s.t1.i + s.t2.i ∧
  (s.t1.phase = Phase.notStarted → s.t1.i = 0) ∧
  (s.t2.phase = Phase.notStarted → s.t2.i = 0) ∧
  (s.t1.phase = Phase.finished → s.t1.i = 1000000) ∧
  (s.t2.phase = Phase.finished → s.t2.i = 1000000) ∧
  match s.pc with
  | MainPc.spawnT1 =>
      s.t1.phase = Phase.notStarted ∧ s.t2.phase = Phase.notStarted ∧
        s.out = "" ∧ s.exitStatus = none
  | MainPc.spawnT2 =>
      s.t1.phase ≠ Phase.notStarted ∧ s.t2.phase = Phase.notStarted ∧
        s.out = "" ∧ s.exitStatus = none
  | MainPc.joinT1 =>
      s.t1.phase ≠ Phase.notStarted ∧ s.t2.phase ≠ Phase.notStarted ∧
        s.out = "" ∧ s.exitStatus = none
  | MainPc.joinT2 =>
      s.t1.phase = Phase.finished ∧ s.t2.phase ≠ Phase.notStarted ∧
        s.out = "" ∧ s.exitStatus = none
  | MainPc.print =>
      s.t1.phase = Phase.finished ∧ s.t2.phase = Phase.finished ∧
        s.out = "" ∧ s.exitStatus = none
  | MainPc.ret =>
      s.t1.phase = Phase.finished ∧ s.t2.phase = Phase.finished ∧
        s.out = expectedOutput ∧ s.exitStatus = none
  | MainPc.exited =>
      s.t1.phase = Phase.finished ∧ s.t2.phase = Phase.finished ∧
        s.out = expectedOutput ∧ s.exitStatus = some 0

/-! ## The termination measure -/

/-- The number of steps `main` still has to take. -/
def pcRemaining : MainPc → Nat
  | MainPc.spawnT1 => 6
  | MainPc.spawnT2 => 5
  | MainPc.joinT1 => 4
  | MainPc.joinT2 => 3
  | MainPc.print => 2
  | MainPc.ret => 1
  | MainPc.exited => 0

/-- The number of steps a thread still has to take: one per remaining loop
iteration and one for the failing loop test. -/
def threadRemaining (t : Thread) : Nat :=
  match t.phase with
  | Phase.notStarted => 1000001
  | Phase.running => (1000000 - t.i).toNat + 1
  | Phase.finished => 0

/-- The number of steps the process still has to take. -/
def remaining (s : State) : Nat :=
  pcRemaining s.pc + threadRemaining s.t1 + threadRemaining s.t2

/-! ## A complete execution -/

/-- The schedule in which `main` starts both threads, `t1` runs to its end, then
`t2` runs to its end, and `main` joins both, prints and returns. -/
def fullSchedule : List Actor :=
  [Actor.main, Actor.main] ++ (List.replicate 1000001 Actor.t1 ++
    (List.replicate 1000001 Actor.t2 ++ [Actor.main, Actor.main, Actor.main, Actor.main]))

/-- The schedule `fullSchedule` up to the output statement. -/
def scheduleToPrint : List Actor :=
  [Actor.main, Actor.main] ++ (List.replicate 1000001 Actor.t1 ++
    (List.replicate 1000001 Actor.t2 ++ [Actor.main, Actor.main]))

/-- The state in which both threads have finished and `main` is at the output
statement. -/
def printState : State :=
  { counter := 2000000
    t1 := { phase := Phase.finished, i := 1000000 }
    t2 := { phase := Phase.finished, i := 1000000 }
    pc := MainPc.print
    out := ""
    exitStatus := none }

/-- The state in which `main` has returned. -/
def finalState : State :=
  { counter := 2000000
    t1 := { phase := Phase.finished, i := 1000000 }
    t2 := { phase := Phase.finished, i := 1000000 }
    pc := MainPc.exited
    out := "Counter value: 2000000\n"
    exitStatus := some 0 }

/-! ## The variant with a plain `int` counter

The source keeps the declaration `int counter = 0;` in a comment.  With it,
`counter++` is a load of the counter into a temporary followed by a store of the
temporary plus one, and another thread can move between the two. -/

/-- The position of a thread inside the loop of the plain-`int` variant: before
the loop test and the load of `counter++`, or before its store. -/
inductive RacyPc
  | load
  | store
  deriving DecidableEq

/-- A thread running `incrementCounter` in the plain-`int` variant: its phase,
its loop variable `i`, its position, and the value it loaded from the counter. -/
structure RacyThread where
  phase : Phase
  i : Int
  pc : RacyPc
  tmp : Int
  deriving DecidableEq

/-- One step of a thread in the plain-`int` variant.  At `load`: the loop test
`i < 1000000`, and when it holds the load of `counter`; when it fails the thread
finishes.  At `store`: the store of the loaded value plus one, then `i++`. -/
def racyIncrementCounterStep (counter : Int) (t : RacyThread) : Int × RacyThread :=
  match t.pc with
  | RacyPc.load =>
      if t.i < 1000000 then
        (counter, { t with tmp := counter, pc := RacyPc.store })
      else
        (counter, { t with phase := Phase.finished })
  | RacyPc.store =>
      (wrap32 (t.tmp + 1), { t with i := wrap32 (t.i + 1), pc := RacyPc.load })

/-- The state of the process in the plain-`int` variant. -/
structure RacyState where
  counter : Int
  t1 : RacyThread
  t2 : RacyThread
  pc : MainPc
  out : String
  exitStatus : Option Int
  deriving DecidableEq

/-- The state at the start of `main` in the plain-`int` variant. -/
def racyInit : RacyState :=
  { counter := 0
    t1 := { phase := Phase.notStarted, i := 0, pc := RacyPc.load, tmp := 0 }
    t2 := { phase := Phase.notStarted, i := 0, pc := RacyPc.load, tmp := 0 }
    pc := MainPc.spawnT1
    out := ""
    exitStatus := none }

/-- One step of `main` in the plain-`int` variant; `main` is the same program. -/
def racyMainStep (s : RacyState) : Option RacyState :=
  match s.pc with
  | MainPc.spawnT1 =>
      some { s with
        t1 := { phase := Phase.running, i := 0, pc := RacyPc.load, tmp := s.t1.tmp }
        pc := MainPc.spawnT2 }
  | MainPc.spawnT2 =>
      some { s with
        t2 := { phase := Phase.running, i := 0, pc := RacyPc.load, tmp := s.t2.tmp }
        pc := MainPc.joinT1 }
  | MainPc.joinT1 =>
      if s.t1.phase = Phase.finished then some { s with pc := MainPc.joinT2 } else none
  | MainPc.joinT2 =>
      if s.t2.phase = Phase.finished then some { s with pc := MainPc.print } else none
  | MainPc.print =>
      some { s with
        out := s.out ++ "Counter value: " ++ toString s.counter ++ "\n"
        pc := MainPc.ret }
  | MainPc.ret =>
      some { s with exitStatus := some 0, pc := MainPc.exited }
  | MainPc.exited => none

/-- One step of the process in the plain-`int` variant by the given actor. -/
def racyStep (a : Actor) (s : RacyState) : Option RacyState :=
  match a with
  | Actor.main => racyMainStep s
  | Actor.t1 =>
      if s.t1.phase = Phase.running then
        some { s with
          counter := (racyIncrementCounterStep s.counter s.t1).1
          t1 := (racyIncrementCounterStep s.counter s.t1).2 }
      else none
  | Actor.t2 =>
      if s.t2.phase = Phase.running then
        some { s with
          counter := (racyIncrementCounterStep s.counter s.t2).1
          t2 := (racyIncrementCounterStep s.counter s.t2).2 }
      else none

/-- The execution of a schedule in the plain-`int` variant. -/
def racyRun : List Actor → RacyState → Option RacyState
  | [], s => some s
  | a :: rest, s =>
      match racyStep a s with
      | none => none
      | some s' => racyRun rest s'

/-- A schedule of the plain-`int` variant in which both threads load the
counter before either stores: `main` starts both threads, `t1` loads, `t2`
loads, `t1` stores, `t2` stores, then `t1` runs its remaining 999999 iterations
and finishes, then `t2` does, and `main` joins both, prints and returns. -/
def lostUpdateSchedule : List Actor :=
  [Actor.main, Actor.main, Actor.t1, Actor.t2, Actor.t1, Actor.t2] ++
    (List.replicate (2 * 999999) Actor.t1 ++ ([Actor.t1] ++
      (List.replicate (2 * 999999) Actor.t2 ++ ([Actor.t2] ++
        [Actor.main, Actor.main, Actor.main, Actor.main]))))

/-- The state the schedule `lostUpdateSchedule` ends in. -/
def lostUpdateFinal : RacyState :=
  { counter := 1999999
    t1 := { phase := Phase.finished, i := 1000000, pc := RacyPc.load, tmp := 999999 }
    t2 := { phase := Phase.finished, i := 1000000, pc := RacyPc.load, tmp := 1999998 }
    pc := MainPc.exited
    out := "Counter value: 1999999\n"
    exitStatus := some 0 }

/-! ## The program at the level of single statements

In `State` one iteration of the loop is one step of its thread.  Here the loop
test `i < 1000000`, the body `counter++` and the increment `i++` are three
steps, and the other thread can move between any two of them.  `abstraction`
maps a state of this program to the state of `State` in which a thread that
has executed `counter++` but not yet `i++` counts as having completed the
iteration. -/

/-- The position of a thread inside the loop of `incrementCounter`: before the
loop test `i < 1000000`, before the body `counter++`, or before the increment
`i++`. -/
inductive LoopPc
  | test
  | body
  | incr
  deriving DecidableEq

/-- A thread running `incrementCounter`, statement by statement: its phase, its
loop variable `i` and its position in the loop. -/
structure StmtThread where
  phase : Phase
  i : Int
  pc : LoopPc
  deriving DecidableEq

/-- One statement of a thread inside `incrementCounter`, given the shared
counter.  At `test`: the loop test `i < 1000000`, which leads to the body or,
when it fails, ends the thread.  At `body`: `counter++`, one atomic
read-modify-write.  At `incr`: `i++`, and back to the loop test. -/
def incrementCounterStmt (counter : Int) (t : StmtThread) : Int × StmtThread :=
  match t.pc with
  | LoopPc.test =>
      if t.i < 1000000 then
        (counter, { t with pc := LoopPc.body })
      else
        (counter, { t with phase := Phase.finished })
  | LoopPc.body => (wrap32 (counter + 1), { t with pc := LoopPc.incr })
  | LoopPc.incr => (counter, { t with i := wrap32 (t.i + 1), pc := LoopPc.test })

/-- The state of the process, with the threads followed statement by
statement. -/
structure StmtState where
  counter : Int
  t1 : StmtThread
  t2 : StmtThread
  pc : MainPc
  out : String
  exitStatus : Option Int
  deriving DecidableEq

/-- The state at the start of `main`. -/
def stmtInit : StmtState :=
  { counter := 0
    t1 := { phase := Phase.notStarted, i := 0, pc := LoopPc.test }
    t2 := { phase := Phase.notStarted, i := 0, pc := LoopPc.test }
    pc := MainPc.spawnT1
    out := ""
    exitStatus := none }

/-- One step of `main`, as in `mainStep`: a created thread starts at the loop
initialisation `int i = 0`, before its first loop test. -/
def stmtMainStep (s : StmtState) : Option StmtState :=
  match s.pc with
  | MainPc.spawnT1 =>
      some { s with
        t1 := { phase := Phase.running, i := 0, pc := LoopPc.test }
        pc := MainPc.spawnT2 }
  | MainPc.spawnT2 =>
      some { s with
        t2 := { phase := Phase.running, i := 0, pc := LoopPc.test }
        pc := MainPc.joinT1 }
  | MainPc.joinT1 =>
      if s.t1.phase = Phase.finished then some { s with pc := MainPc.joinT2 } else none
  | MainPc.joinT2 =>
      if s.t2.phase = Phase.finished then some { s with pc := MainPc.print } else none
  | MainPc.print =>
      some { s with
        out := s.out ++ "Counter value: " ++ toString s.counter ++ "\n"
        pc := MainPc.ret }
  | MainPc.ret =>
      some { s with exitStatus := some 0, pc := MainPc.exited }
  | MainPc.exited => none

/-- One step of the process by the given actor, statement by statement, `none`
when that actor cannot move in this state. -/
def stmtStep (a : Actor) (s : StmtState) : Option StmtState :=
  match a with
  | Actor.main => stmtMainStep s
  | Actor.t1 =>
      if s.t1.phase = Phase.running then
        some { s with
          counter := (incrementCounterStmt s.counter s.t1).1
          t1 := (incrementCounterStmt s.counter s.t1).2 }
      else none
  | Actor.t2 =>
      if s.t2.phase = Phase.running then
        some { s with
          counter := (incrementCounterStmt s.counter s.t2).1
          t2 := (incrementCounterStmt s.counter s.t2).2 }
      else none

/-- The execution of a schedule, statement by statement. -/
def stmtRun : List Actor → StmtState → Option StmtState
  | [], s => some s
  | a :: rest, s =>
      match stmtStep a s with
      | none => none
      | some s' => stmtRun rest s'

/-- Whether the step of actor `a` in state `s` is the statement `counter++`. -/
def stmtPerformsIncrement (a : Actor) (s : StmtState) : Bool :=
  match a with
  | Actor.main => false
  | Actor.t1 => decide (s.t1.phase = Phase.running ∧ s.t1.pc = LoopPc.body)
  | Actor.t2 => decide (s.t2.phase = Phase.running ∧ s.t2.pc = LoopPc.body)

/-- The number of executions of `counter++` along the execution of a schedule,
statement by statement. -/
def stmtIncrements : List Actor → StmtState → Nat
  | [], _ => 0
  | a :: rest, s =>
      match stmtStep a s with
      | none => 0
      | some s' => (if stmtPerformsIncrement a s then 1 else 0) + stmtIncrements rest s'

/-- The number of executions of `counter++` by the thread `who` along the
execution of a schedule, statement by statement. -/
def stmtIncrementsBy (who : Actor) : List Actor → StmtState → Nat
  | [], _ => 0
  | a :: rest, s =>
      match stmtStep a s with
      | none => 0
      | some s' =>
          (if a = who ∧ stmtPerformsIncrement a s = true then 1 else 0) +
            stmtIncrementsBy who rest s'

/-- Whether a thread is between its `counter++` and the `i++` that follows: 1
when it is, 0 otherwise. -/
def pending (t : StmtThread) : Int :=
  if t.pc = LoopPc.incr then 1 else 0

/-- The thread of `State` that a statement-level thread stands for: an
iteration whose `counter++` has been executed counts as completed. -/
def abstractThread (t : StmtThread) : Thread :=
  { phase := t.phase, i := t.i + pending t }

/-- The state of `State` that a statement-level state stands for. -/
def abstraction (s : StmtState) : State :=
  { counter := s.counter
    t1 := abstractThread s.t1
    t2 := abstractThread s.t2
    pc := s.pc
    out := s.out
    exitStatus := s.exitStatus }

/-- What holds of a thread at every moment: the loop variable is within
`0 .. 1000000`, and it is below 1000000 once the loop test has been passed. -/
def LoopInv (t : StmtThread) : Prop :=
  0 ≤ t.i ∧ t.i ≤ 1000000 ∧ (t.pc ≠ LoopPc.test → t.i < 1000000)

/-- What holds in every reachable statement-level state: `LoopInv` of both
threads, and the invariant `Inv` of the state it stands for. -/
def StmtInv (s : StmtState) : Prop :=
  LoopInv s.t1 ∧ LoopInv s.t2 ∧ Inv (abstraction s)

/-- A schedule after which both threads have executed `counter++` once and
neither has executed `i++` yet. -/
def lagSchedule : List Actor :=
  [Actor.main, Actor.main, Actor.t1, Actor.t1, Actor.t2, Actor.t2]

/-- The state the schedule `lagSchedule` ends in. -/
def lagState : StmtState :=
  { counter := 2
    t1 := { phase := Phase.running, i := 0, pc := LoopPc.incr }
    t2 := { phase := Phase.running, i := 0, pc := LoopPc.incr }
    pc := MainPc.joinT1
    out := ""
    exitStatus := none }

/-! ## The counter and the entry point of the specification

The specification describes a `ConcurrentCounter` that any number `T` of
workers increment `K` times each, after which the coordinating thread waits
for all of them and reads the counter (sections 3, 4.1, 5, 6 and 8).  The
source has neither parameter: it creates exactly two threads and its loop bound
is the literal 1000000.  The definitions of this section follow the
specification. -/

/-- Modelled from the spec: the `ConcurrentCounter` of section 3, whose
attribute `value` is a signed integer, unbounded by design.  The source has only
the global `std::atomic<int> counter`; a counter object is missing from it. -/
structure ConcurrentCounter where
  value : Int
  deriving DecidableEq

/-- Modelled from the spec: the creation of a `ConcurrentCounter`, "created with
`value = 0`" (section 3); missing from the source as an operation. -/
def ConcurrentCounter.create : ConcurrentCounter :=
  { value := 0 }

/-- Modelled from the spec: the operation `increment()` of section 4.1, which
"atomically adds 1 to `value`" and cannot fail; missing from the source as an
operation of its own. -/
def ConcurrentCounter.increment (c : ConcurrentCounter) : ConcurrentCounter :=
  { value := c.value + 1 }

/-- Modelled from the spec: the operation `read()` of section 4.1, which
"returns the current value of `value`"; missing from the source as an operation
of its own. -/
def ConcurrentCounter.read (c : ConcurrentCounter) : Int :=
  c.value

/-- Modelled from the spec: a worker of sections 6 and 8, a thread that performs
a fixed number of increments; `performed` is the number it has completed.  The
source has no worker with a configurable count. -/
structure Worker where
  phase : Phase
  performed : Nat
  deriving DecidableEq

/-- Modelled from the spec: one step of a worker that is to perform `K`
increments (section 8; the count `K` is the configuration parameter of section
9, missing from the source): one `increment()` while fewer than `K` have been
performed, and termination after that. -/
def workerStep (K : Nat) (c : ConcurrentCounter) (w : Worker) :
    ConcurrentCounter × Worker :=
  if w.performed < K then
    (c.increment, { w with performed := w.performed + 1 })
  else
    (c, { w with phase := Phase.finished })

/-- Modelled from the spec: the state of the entry point of section 6 run with
`T` workers (section 8; missing from the source, which has two named threads):
the counter, the workers started so far in the order of their start, the number
of workers joined so far, and the value returned by `read()` once it has been
called. -/
structure PoolState where
  counter : ConcurrentCounter
  workers : List Worker
  joined : Nat
  result : Option Int
  deriving DecidableEq

/-- Modelled from the spec: the state in which the entry point of section 6
starts, with the counter just created; missing from the source for `T` workers. -/
def poolInit : PoolState :=
  { counter := ConcurrentCounter.create, workers := [], joined := 0, result := none }

/-- Modelled from the spec: the threads of execution of the entry point run with
`T` workers (section 5: "multiple parallel threads of execution, each
independently scheduled"): the coordinating thread and the worker started as
number `j`, counting from 0.  The source has exactly `t1` and `t2`. -/
inductive PoolActor
  | main
  | worker (j : Nat)
  deriving DecidableEq

/-- Modelled from the spec: one step of the coordinating thread of section 6
with `T` workers (section 8; the parameter `T` is missing from the source): it
starts the next worker while fewer than `T` have been started; then waits for
the next worker, which it can only pass when that worker has terminated (the
join barrier of section 5); and after all workers are joined it calls `read()`. -/
def poolMainStep (T : Nat) (s : PoolState) : Option PoolState :=
  if s.workers.length < T then
    some { s with workers := s.workers ++ [{ phase := Phase.running, performed := 0 }] }
  else if s.joined < T then
    match s.workers[s.joined]? with
    | some w =>
        if w.phase = Phase.finished then some { s with joined := s.joined + 1 } else none
    | none => none
  else
    match s.result with
    | none => some { s with result := some s.counter.read }
    | some _ => none

/-- Modelled from the spec: one step of the entry point with `T` workers of `K`
increments each (section 8; both parameters are missing from the source) by the
given actor, `none` when that actor cannot move. -/
def poolStep (T K : Nat) (a : PoolActor) (s : PoolState) : Option PoolState :=
  match a with
  | PoolActor.main => poolMainStep T s
  | PoolActor.worker j =>
      match s.workers[j]? with
      | some w =>
          if w.phase = Phase.running then
            some { s with
              counter := (workerStep K s.counter w).1
              workers := s.workers.set j (workerStep K s.counter w).2 }
          else none
      | none => none

/-- Modelled from the spec: the execution of a schedule of the entry point with
`T` workers of `K` increments each (section 5: which interleaving occurs is
unspecified); missing from the source for parameters `T` and `K`. -/
def poolRun (T K : Nat) : List PoolActor → PoolState → Option PoolState
  | [], s => some s
  | a :: rest, s =>
      match poolStep T K a s with
      | none => none
      | some s' => poolRun T K rest s'

/-- What holds in every reachable state of the entry point with `T` workers of
`K` increments each: at most `T` workers exist, each has performed at most `K`
increments, exactly `K` when it has terminated, and has been started; the value
of the counter is the total number of increments performed; the joined workers
have terminated; and a value that has been read was read after all `T` workers
were joined and is the value of the counter. -/
def PoolInv (T K : Nat) (s : PoolState) : Prop :=
  s.workers.length ≤ T ∧
  (∀ w ∈ s.workers, w.performed ≤ K ∧
    (w.phase = Phase.finished → w.performed = K) ∧ w.phase ≠ Phase.notStarted) ∧
  s.counter.value = ((s.workers.map Worker.performed).sum : Nat) ∧
  (∀ j, j < s.joined → ∃ w, s.workers[j]? = some w ∧ w.phase = Phase.finished) ∧
  s.joined ≤ T ∧
  (∀ v, s.result = some v → s.workers.length = T ∧ s.joined = T ∧ v = s.counter.value)

/-- The number of steps a worker that is to perform `K` increments still has to
take. -/
def workerRemaining (K : Nat) (w : Worker) : Nat :=
  match w.phase with
  | Phase.notStarted => K + 1
  | Phase.running => (K - w.performed) + 1
  | Phase.finished => 0

/-- The number of steps the entry point with `T` workers of `K` increments each
still has to take: for every worker not yet started its start and all its
steps, the remaining steps of the workers that exist, the joins, and the read. -/
def poolRemaining (T K : Nat) (s : PoolState) : Nat :=
  (T - s.workers.length) * (K + 2) + (s.workers.map (workerRemaining K)).sum +
    (T - s.joined) + (match s.result with | none => 1 | some _ => 0)

/-- A schedule of the entry point with two workers of `K` increments each in
which the first worker runs to its end, then the second, and the coordinating
thread joins both and reads the counter. -/
def poolSchedule (K : Nat) : List PoolActor :=
  [PoolActor.main, PoolActor.main] ++ (List.replicate K (PoolActor.worker 0) ++
    ([PoolActor.worker 0] ++ (List.replicate K (PoolActor.worker 1) ++
      ([PoolActor.worker 1] ++ [PoolActor.main, PoolActor.main, PoolActor.main]))))

/-! ## Basic facts -/

theorem wrap32_of_range (x : Int) (h1 : -2147483648 ≤ x) (h2 : x ≤ 2147483647) :
    wrap32 x = x := by
  unfold wrap32
  omega

theorem inv_init : Inv init := by
  simp [Inv, init]

theorem print_line : "" ++ "Counter value: " ++ toString (2000000 : Int) ++ "\n"
    = expectedOutput := by
  decide

theorem inv_step {a : Actor} {s s' : State} (h : Inv s) (hs : step a s = some s') :
    Inv s' := by
  obtain ⟨c, ⟨p1, i1⟩, ⟨p2, i2⟩, pc, out, ex⟩ := s
  obtain ⟨h1, h2, h3, h4, h5, h6, h7, h8, h9, h10⟩ := h
  simp only at h1 h2 h3 h4 h5 h6 h7 h8 h9 h10
  cases a
  · -- main
    cases pc <;> simp only [step, mainStep] at hs
    · cases hs; simp_all [Inv]
    · cases hs; simp_all [Inv]
    · split at hs
      · cases hs; simp_all [Inv]
      · cases hs
    · split at hs
      · cases hs; simp_all [Inv]
      · cases hs
    · cases hs
      obtain ⟨e1, e2, e3, e4⟩ := h10
      have hc : c = 2000000 := by
        have := h8 e1; have := h9 e2; omega
      subst hc
      subst e3
      refine ⟨h1, h2, h3, h4, h5, h6, h7, h8, h9, e1, e2, print_line, e4⟩
    · cases hs; simp_all [Inv]
    · cases hs
  · -- t1
    simp only [step] at hs
    split at hs
    · rename_i hrun
      cases hs
      subst hrun
      unfold incrementCounterStep
      simp only
      split
      · rename_i hlt
        have w1 : wrap32 (i1 + 1) = i1 + 1 := wrap32_of_range _ (by omega) (by omega)
        have w2 : wrap32 (c + 1) = c + 1 := wrap32_of_range _ (by omega) (by omega)
        simp only [w1, w2]
        cases pc <;> simp_all [Inv] <;> omega
      · rename_i hge
        have : i1 = 1000000 := by omega
        cases pc <;> simp_all [Inv]
    · cases hs
  · -- t2
    simp only [step] at hs
    split at hs
    · rename_i hrun
      cases hs
      subst hrun
      unfold incrementCounterStep
      simp only
      split
      · rename_i hlt
        have w1 : wrap32 (i2 + 1) = i2 + 1 := wrap32_of_range _ (by omega) (by omega)
        have w2 : wrap32 (c + 1) = c + 1 := wrap32_of_range _ (by omega) (by omega)
        simp only [w1, w2]
        cases pc <;> simp_all [Inv] <;> omega
      · rename_i hge
        have : i2 = 1000000 := by omega
        cases pc <;> simp_all [Inv]
    · cases hs


theorem inv_run {sched : List Actor} {s s' : State} (h : Inv s)
    (hs : run sched s = some s') : Inv s' := by
  induction sched generalizing s with
  | nil =>
      simp only [run, Option.some.injEq] at hs
      subst hs
      exact h
  | cons a rest ih =>
      simp only [run] at hs
      cases hstep : step a s with
      | none => simp [hstep] at hs
      | some s1 =>
          rw [hstep] at hs
          exact ih (inv_step h hstep) hs

theorem run_append (xs ys : List Actor) (s : State) :
    run (xs ++ ys) s = (run xs s).bind (run ys) := by
  induction xs generalizing s with
  | nil => simp [run]
  | cons a rest ih =>
      simp only [List.cons_append, run]
      cases step a s with
      | none => simp
      | some s1 => simpa using ih s1

theorem remaining_step {a : Actor} {s s' : State} (h : Inv s) (hs : step a s = some s') :
    remaining s' + 1 = remaining s := by
  obtain ⟨c, ⟨p1, i1⟩, ⟨p2, i2⟩, pc, out, ex⟩ := s
  obtain ⟨h1, h2, h3, h4, h5, h6, h7, h8, h9, h10⟩ := h
  simp only at h1 h2 h3 h4 h5 h6 h7 h8 h9 h10
  cases a
  · cases pc <;> simp only [step, mainStep] at hs
    · cases hs
      obtain ⟨e1, e2, -, -⟩ := h10
      subst e1; subst e2
      have := h6 rfl
      subst this
      simp only [remaining, pcRemaining, threadRemaining]
      omega
    · cases hs
      obtain ⟨-, e2, -, -⟩ := h10
      subst e2
      have := h7 rfl
      subst this
      simp only [remaining, pcRemaining, threadRemaining]
      omega
    · split at hs
      · cases hs; simp only [remaining, pcRemaining]; omega
      · cases hs
    · split at hs
      · cases hs; simp only [remaining, pcRemaining]; omega
      · cases hs
    · cases hs; simp only [remaining, pcRemaining]; omega
    · cases hs; simp only [remaining, pcRemaining]; omega
    · cases hs
  · simp only [step] at hs
    split at hs
    · rename_i hrun
      cases hs
      subst hrun
      unfold incrementCounterStep
      simp only
      split
      · rename_i hlt
        have w1 : wrap32 (i1 + 1) = i1 + 1 := wrap32_of_range _ (by omega) (by omega)
        simp only [w1, remaining, threadRemaining]
        omega
      · rename_i hge
        simp only [remaining, threadRemaining]
        omega
    · cases hs
  · simp only [step] at hs
    split at hs
    · rename_i hrun
      cases hs
      subst hrun
      unfold incrementCounterStep
      simp only
      split
      · rename_i hlt
        have w1 : wrap32 (i2 + 1) = i2 + 1 := wrap32_of_range _ (by omega) (by omega)
        simp only [w1, remaining, threadRemaining]
        omega
      · rename_i hge
        simp only [remaining, threadRemaining]
        omega
    · cases hs

theorem remaining_run {sched : List Actor} {s s' : State} (h : Inv s)
    (hs : run sched s = some s') : sched.length + remaining s' = remaining s := by
  induction sched generalizing s with
  | nil =>
      simp only [run, Option.some.injEq] at hs
      subst hs
      simp
  | cons a rest ih =>
      simp only [run] at hs
      cases hstep : step a s with
      | none => simp [hstep] at hs
      | some s1 =>
          rw [hstep] at hs
          have h1 := ih (inv_step h hstep) hs
          have h2 := remaining_step h hstep
          simp only [List.length_cons]
          omega

/-! ## Counting the increments -/

theorem counter_step {a : Actor} {s s' : State} (h : Inv s) (hs : step a s = some s') :
    s'.counter = s.counter + (if performsIncrement a s = true then 1 else 0) := by
  obtain ⟨c, ⟨p1, i1⟩, ⟨p2, i2⟩, pc, out, ex⟩ := s
  obtain ⟨h1, h2, h3, h4, h5, -⟩ := h
  simp only at h1 h2 h3 h4 h5
  cases a
  · cases pc <;> simp only [step, mainStep] at hs
    · cases hs; simp [performsIncrement]
    · cases hs; simp [performsIncrement]
    · split at hs
      · cases hs; simp [performsIncrement]
      · cases hs
    · split at hs
      · cases hs; simp [performsIncrement]
      · cases hs
    · cases hs; simp [performsIncrement]
    · cases hs; simp [performsIncrement]
    · cases hs
  · simp only [step] at hs
    split at hs
    · rename_i hrun
      cases hs
      subst hrun
      unfold incrementCounterStep
      simp only
      split
      · rename_i hlt
        have w2 : wrap32 (c + 1) = c + 1 := wrap32_of_range _ (by omega) (by omega)
        simp [w2, performsIncrement, hlt]
      · rename_i hge
        simp [performsIncrement, hge]
    · cases hs
  · simp only [step] at hs
    split at hs
    · rename_i hrun
      cases hs
      subst hrun
      unfold incrementCounterStep
      simp only
      split
      · rename_i hlt
        have w2 : wrap32 (c + 1) = c + 1 := wrap32_of_range _ (by omega) (by omega)
        simp [w2, performsIncrement, hlt]
      · rename_i hge
        simp [performsIncrement, hge]
    · cases hs

theorem increments_run {sched : List Actor} {s s' : State} (h : Inv s)
    (hs : run sched s = some s') : (increments sched s : Int) = s'.counter - s.counter := by
  induction sched generalizing s with
  | nil =>
      simp only [run, Option.some.injEq] at hs
      subst hs
      simp [increments]
  | cons a rest ih =>
      simp only [run] at hs
      cases hstep : step a s with
      | none => simp [hstep] at hs
      | some s1 =>
          rw [hstep] at hs
          have h1 := ih (inv_step h hstep) hs
          have h2 := counter_step h hstep
          simp only [increments, hstep]
          split at h2 <;> rename_i hp <;> simp only [hp] <;> push_cast <;> omega

theorem i1_step {a : Actor} {s s' : State} (h : Inv s) (hs : step a s = some s') :
    s'.t1.i = s.t1.i +
      (if a = Actor.t1 ∧ performsIncrement a s = true then 1 else 0) := by
  obtain ⟨c, ⟨p1, i1⟩, ⟨p2, i2⟩, pc, out, ex⟩ := s
  obtain ⟨h1, h2, h3, h4, h5, h6, -, -, -, h10⟩ := h
  simp only at h1 h2 h3 h4 h5 h6 h10
  cases a
  · cases pc <;> simp only [step, mainStep] at hs
    · cases hs
      have := h6 h10.1
      simp [this]
    · cases hs; simp
    · split at hs
      · cases hs; simp
      · cases hs
    · split at hs
      · cases hs; simp
      · cases hs
    · cases hs; simp
    · cases hs; simp
    · cases hs
  · simp only [step] at hs
    split at hs
    · rename_i hrun
      cases hs
      subst hrun
      unfold incrementCounterStep
      simp only
      split
      · rename_i hlt
        have w1 : wrap32 (i1 + 1) = i1 + 1 := wrap32_of_range _ (by omega) (by omega)
        simp [w1, performsIncrement, hlt]
      · rename_i hge
        simp [performsIncrement, hge]
    · cases hs
  · simp only [step] at hs
    split at hs
    · cases hs; simp
    · cases hs

theorem i2_step {a : Actor} {s s' : State} (h : Inv s) (hs : step a s = some s') :
    s'.t2.i = s.t2.i +
      (if a = Actor.t2 ∧ performsIncrement a s = true then 1 else 0) := by
  obtain ⟨c, ⟨p1, i1⟩, ⟨p2, i2⟩, pc, out, ex⟩ := s
  obtain ⟨h1, h2, h3, h4, h5, h6, h7, -, -, h10⟩ := h
  simp only at h1 h2 h3 h4 h5 h6 h7 h10
  cases a
  · cases pc <;> simp only [step, mainStep] at hs
    · cases hs; simp
    · cases hs
      have := h7 h10.2.1
      simp [this]
    · split at hs
      · cases hs; simp
      · cases hs
    · split at hs
      · cases hs; simp
      · cases hs
    · cases hs; simp
    · cases hs; simp
    · cases hs
  · simp only [step] at hs
    split at hs
    · cases hs; simp
    · cases hs
  · simp only [step] at hs
    split at hs
    · rename_i hrun
      cases hs
      subst hrun
      unfold incrementCounterStep
      simp only
      split
      · rename_i hlt
        have w1 : wrap32 (i2 + 1) = i2 + 1 := wrap32_of_range _ (by omega) (by omega)
        simp [w1, performsIncrement, hlt]
      · rename_i hge
        simp [performsIncrement, hge]
    · cases hs

theorem incrementsBy_t1_run {sched : List Actor} {s s' : State} (h : Inv s)
    (hs : run sched s = some s') :
    (incrementsBy Actor.t1 sched s : Int) = s'.t1.i - s.t1.i := by
  induction sched generalizing s with
  | nil =>
      simp only [run, Option.some.injEq] at hs
      subst hs
      simp [incrementsBy]
  | cons a rest ih =>
      simp only [run] at hs
      cases hstep : step a s with
      | none => simp [hstep] at hs
      | some s1 =>
          rw [hstep] at hs
          have h1 := ih (inv_step h hstep) hs
          have h2 := i1_step h hstep
          simp only [incrementsBy, hstep]
          by_cases hp : (a = Actor.t1 ∧ performsIncrement a s = true)
          · rw [if_pos hp] at h2 ⊢
            push_cast
            omega
          · rw [if_neg hp] at h2 ⊢
            push_cast
            omega

theorem incrementsBy_t2_run {sched : List Actor} {s s' : State} (h : Inv s)
    (hs : run sched s = some s') :
    (incrementsBy Actor.t2 sched s : Int) = s'.t2.i - s.t2.i := by
  induction sched generalizing s with
  | nil =>
      simp only [run, Option.some.injEq] at hs
      subst hs
      simp [incrementsBy]
  | cons a rest ih =>
      simp only [run] at hs
      cases hstep : step a s with
      | none => simp [hstep] at hs
      | some s1 =>
          rw [hstep] at hs
          have h1 := ih (inv_step h hstep) hs
          have h2 := i2_step h hstep
          simp only [incrementsBy, hstep]
          by_cases hp : (a = Actor.t2 ∧ performsIncrement a s = true)
          · rw [if_pos hp] at h2 ⊢
            push_cast
            omega
          · rw [if_neg hp] at h2 ⊢
            push_cast
            omega

/-! ## Progress -/

theorem thread_never_blocks_t1 (s : State) (h : s.t1.phase = Phase.running) :
    (step Actor.t1 s).isSome = true := by
  simp [step, h]

theorem thread_never_blocks_t2 (s : State) (h : s.t2.phase = Phase.running) :
    (step Actor.t2 s).isSome = true := by
  simp [step, h]

theorem canMove_of_inv {s : State} (h : Inv s) (hpc : s.pc ≠ MainPc.exited) :
    canMove s = true := by
  obtain ⟨c, ⟨p1, i1⟩, ⟨p2, i2⟩, pc, out, ex⟩ := s
  obtain ⟨-, -, -, -, -, -, -, -, -, h10⟩ := h
  simp only at h10 hpc
  cases pc
  · simp [canMove, step, mainStep]
  · simp [canMove, step, mainStep]
  · cases p1
    · exact absurd rfl h10.1
    · simp [canMove, step, mainStep]
    · simp [canMove, step, mainStep]
  · cases p2
    · exact absurd rfl h10.2.1
    · simp [canMove, step, mainStep]
    · simp [canMove, step, mainStep]
  · simp [canMove, step, mainStep]
  · simp [canMove, step, mainStep]
  · exact absurd rfl hpc

theorem remaining_exited {s : State} (h : Inv s) (hpc : s.pc = MainPc.exited) :
    remaining s = 0 := by
  obtain ⟨c, ⟨p1, i1⟩, ⟨p2, i2⟩, pc, out, ex⟩ := s
  obtain ⟨-, -, -, -, -, -, -, -, -, h10⟩ := h
  simp only at h10 hpc
  subst hpc
  obtain ⟨e1, e2, -, -⟩ := h10
  subst e1; subst e2
  rfl

theorem remaining_init : remaining init = 2000008 := by
  simp only [remaining, init, pcRemaining, threadRemaining]

/-! ## One thread running alone -/

theorem wrap32_range (x : Int) : -2147483648 ≤ wrap32 x ∧ wrap32 x ≤ 2147483647 := by
  unfold wrap32
  omega

theorem wrap32_succ (x : Int) (n : Nat) :
    wrap32 (wrap32 (x + 1) + n) = wrap32 (x + (n + 1 : Nat)) := by
  unfold wrap32
  push_cast
  omega

theorem run_t1_iterations (n : Nat) (s : State) (hp : s.t1.phase = Phase.running)
    (h0 : 0 ≤ s.t1.i) (h1 : s.t1.i + n ≤ 1000000)
    (hc0 : -2147483648 ≤ s.counter) (hc : s.counter ≤ 2147483647) :
    run (List.replicate n Actor.t1) s =
      some { s with
        counter := wrap32 (s.counter + n)
        t1 := { phase := Phase.running, i := s.t1.i + n } } := by
  induction n generalizing s with
  | zero =>
      obtain ⟨c, ⟨p1, i1⟩, t2, pc, out, ex⟩ := s
      simp only at hp hc0 hc
      subst hp
      have w : wrap32 c = c := wrap32_of_range _ hc0 hc
      simp [run, w]
  | succ n ih =>
      obtain ⟨c, ⟨p1, i1⟩, t2, pc, out, ex⟩ := s
      simp only at hp h0 h1 hc0 hc
      subst hp
      push_cast at h1
      have hlt : i1 < 1000000 := by omega
      have w1 : wrap32 (i1 + 1) = i1 + 1 := wrap32_of_range _ (by omega) (by omega)
      simp only [List.replicate_succ, run, step, incrementCounterStep, hlt, if_true, w1]
      rw [ih _ rfl (by simp only; omega) (by simp only; omega) (wrap32_range _).1
        (wrap32_range _).2]
      simp only [wrap32_succ, Option.some.injEq, State.mk.injEq, Thread.mk.injEq, true_and,
        and_true]
      push_cast
      omega

theorem run_t2_iterations (n : Nat) (s : State) (hp : s.t2.phase = Phase.running)
    (h0 : 0 ≤ s.t2.i) (h1 : s.t2.i + n ≤ 1000000)
    (hc0 : -2147483648 ≤ s.counter) (hc : s.counter ≤ 2147483647) :
    run (List.replicate n Actor.t2) s =
      some { s with
        counter := wrap32 (s.counter + n)
        t2 := { phase := Phase.running, i := s.t2.i + n } } := by
  induction n generalizing s with
  | zero =>
      obtain ⟨c, t1, ⟨p2, i2⟩, pc, out, ex⟩ := s
      simp only at hp hc0 hc
      subst hp
      have w : wrap32 c = c := wrap32_of_range _ hc0 hc
      simp [run, w]
  | succ n ih =>
      obtain ⟨c, t1, ⟨p2, i2⟩, pc, out, ex⟩ := s
      simp only at hp h0 h1 hc0 hc
      subst hp
      push_cast at h1
      have hlt : i2 < 1000000 := by omega
      have w1 : wrap32 (i2 + 1) = i2 + 1 := wrap32_of_range _ (by omega) (by omega)
      simp only [List.replicate_succ, run, step, incrementCounterStep, hlt, if_true, w1]
      rw [ih _ rfl (by simp only; omega) (by simp only; omega) (wrap32_range _).1
        (wrap32_range _).2]
      simp only [wrap32_succ, Option.some.injEq, State.mk.injEq, Thread.mk.injEq, true_and,
        and_true]
      push_cast
      omega

theorem replicate_million_one (a : Actor) :
    List.replicate 1000001 a = List.replicate 1000000 a ++ [a] := by
  have h : (1000001 : Nat) = 1000000 + 1 := by norm_num
  rw [h, List.replicate_succ']

theorem run_t1_whole (c : Int) (t2 : Thread) (pc : MainPc) (out : String)
    (ex : Option Int) (hc0 : -2147483648 ≤ c) (hc : c ≤ 2147483647) :
    run (List.replicate 1000001 Actor.t1)
        { counter := c, t1 := { phase := Phase.running, i := 0 }, t2 := t2, pc := pc,
          out := out, exitStatus := ex } =
      some { counter := wrap32 (c + 1000000),
             t1 := { phase := Phase.finished, i := 1000000 },
             t2 := t2, pc := pc, out := out, exitStatus := ex } := by
  rw [replicate_million_one, run_append,
    run_t1_iterations 1000000 _ rfl (by simp) (by simp) hc0 hc]
  simp [run, step, incrementCounterStep]

theorem run_t2_whole (c : Int) (t1 : Thread) (pc : MainPc) (out : String)
    (ex : Option Int) (hc0 : -2147483648 ≤ c) (hc : c ≤ 2147483647) :
    run (List.replicate 1000001 Actor.t2)
        { counter := c, t1 := t1, t2 := { phase := Phase.running, i := 0 }, pc := pc,
          out := out, exitStatus := ex } =
      some { counter := wrap32 (c + 1000000), t1 := t1,
             t2 := { phase := Phase.finished, i := 1000000 },
             pc := pc, out := out, exitStatus := ex } := by
  rw [replicate_million_one, run_append,
    run_t2_iterations 1000000 _ rfl (by simp) (by simp) hc0 hc]
  simp [run, step, incrementCounterStep]

theorem run_scheduleToPrint : run scheduleToPrint init = some printState := by
  unfold scheduleToPrint
  rw [run_append]
  have h1 : run [Actor.main, Actor.main] init =
      some { counter := 0, t1 := { phase := Phase.running, i := 0 },
             t2 := { phase := Phase.running, i := 0 }, pc := MainPc.joinT1,
             out := "", exitStatus := none } := by
    decide
  have e1 : wrap32 (0 + 1000000) = 1000000 := by decide
  have e2 : wrap32 (1000000 + 1000000) = 2000000 := by decide
  rw [h1, Option.some_bind, run_append, run_t1_whole _ _ _ _ _ (by norm_num) (by norm_num),
    Option.some_bind, run_append, e1,
    run_t2_whole _ _ _ _ _ (by norm_num) (by norm_num), Option.some_bind, e2]
  decide

theorem run_fullSchedule : run fullSchedule init = some finalState := by
  have h : fullSchedule = scheduleToPrint ++ [Actor.main, Actor.main] := by
    simp only [fullSchedule, scheduleToPrint, List.append_assoc, List.cons_append,
      List.nil_append]
  rw [h, run_append, run_scheduleToPrint, Option.some_bind]
  decide

/-! ## The sequential loop -/

theorem loop_eq (n : Nat) (i c : Int) (h0 : 0 ≤ i) (h1 : i + n = 1000000)
    (hc0 : -2147483648 ≤ c) (hc : c ≤ 2147483647) :
    incrementCounter.loop i c = wrap32 (c + n) := by
  induction n generalizing i c with
  | zero =>
      have hi : ¬ i < 1000000 := by
        push_cast at h1
        omega
      rw [incrementCounter.loop, if_neg hi]
      simp only [Nat.cast_zero, add_zero]
      exact (wrap32_of_range _ hc0 hc).symm
  | succ n ih =>
      push_cast at h1
      have hi : i < 1000000 := by omega
      have w1 : wrap32 (i + 1) = i + 1 := wrap32_of_range _ (by omega) (by omega)
      rw [incrementCounter.loop, if_pos hi, w1,
        ih (i + 1) (wrap32 (c + 1)) (by omega) (by omega) (wrap32_range _).1 (wrap32_range _).2,
        wrap32_succ]

theorem incrementCounter_eq (c : Int) (hc0 : -2147483648 ≤ c) (hc : c ≤ 2147483647) :
    incrementCounter c = wrap32 (c + 1000000) := by
  unfold incrementCounter
  rw [loop_eq 1000000 0 c (le_refl 0) (by norm_num) hc0 hc]
  norm_num

/-! ## Facts about reachable states -/

theorem inv_reachable {sched : List Actor} {s : State} (h : run sched init = some s) :
    Inv s :=
  inv_run inv_init h

theorem joined_facts {s : State} (h : Inv s) (hj : bothJoined s = true) :
    s.t1.phase = Phase.finished ∧ s.t2.phase = Phase.finished ∧
      s.t1.i = 1000000 ∧ s.t2.i = 1000000 ∧ s.counter = 2000000 := by
  obtain ⟨c, ⟨p1, i1⟩, ⟨p2, i2⟩, pc, out, ex⟩ := s
  obtain ⟨h1, h2, h3, h4, h5, h6, h7, h8, h9, h10⟩ := h
  simp only at h1 h2 h3 h4 h5 h6 h7 h8 h9 h10
  cases pc <;> simp only [bothJoined] at hj <;> first
    | exact absurd hj (by decide)
    | (obtain ⟨e1, e2, -, -⟩ := h10
       have a1 := h8 e1
       have a2 := h9 e2
       refine ⟨e1, e2, a1, a2, ?_⟩
       simp only
       omega)

theorem counter_le {s : State} (h : Inv s) : s.counter ≤ 2000000 := by
  obtain ⟨h1, h2, h3, h4, h5, -⟩ := h
  omega

theorem no_increment_after_join {more : List Actor} {s s' : State} (h : Inv s)
    (hj : bothJoined s = true) (hr : run more s = some s') :
    increments more s = 0 ∧ s'.counter = s.counter := by
  have e := increments_run h hr
  have c1 := (joined_facts h hj).2.2.2.2
  have c2 := counter_le (inv_run h hr)
  constructor <;> omega

theorem readMany_eq (n : Nat) (s : State) :
    readMany n s = (List.replicate n s.counter, s) := by
  induction n with
  | zero => rfl
  | succ n ih => simp [readMany, read, ih, List.replicate_succ]

theorem exists_step_of_canMove {s : State} (h : canMove s = true) :
    ∃ (a : Actor) (s' : State), step a s = some s' := by
  simp only [canMove, Bool.or_eq_true, Option.isSome_iff_exists] at h
  rcases h with (⟨s', hs⟩ | ⟨s', hs⟩) | ⟨s', hs⟩
  · exact ⟨Actor.main, s', hs⟩
  · exact ⟨Actor.t1, s', hs⟩
  · exact ⟨Actor.t2, s', hs⟩

theorem can_finish_aux (n : Nat) :
    ∀ s : State, Inv s → remaining s = n →
      ∃ (more : List Actor) (s' : State), run more s = some s' ∧ s'.pc = MainPc.exited := by
  induction n with
  | zero =>
      intro s _ hrem
      refine ⟨[], s, rfl, ?_⟩
      obtain ⟨c, t1, t2, pc, out, ex⟩ := s
      cases pc <;> simp only [remaining, pcRemaining] at hrem <;> first
        | rfl
        | omega
  | succ n ih =>
      intro s hinv hrem
      have hpc : s.pc ≠ MainPc.exited := by
        intro he
        have := remaining_exited hinv he
        omega
      obtain ⟨a, s1, hstep⟩ := exists_step_of_canMove (canMove_of_inv hinv hpc)
      have hdec := remaining_step hinv hstep
      obtain ⟨more, s', hrun, hex⟩ := ih s1 (inv_step hinv hstep) (by omega)
      refine ⟨a :: more, s', ?_, hex⟩
      simp only [run, hstep]
      exact hrun

theorem can_finish {s : State} (h : Inv s) :
    ∃ (more : List Actor) (s' : State),
      run more s = some s' ∧ Inv s' ∧ s'.pc = MainPc.exited := by
  obtain ⟨more, s', hrun, hex⟩ := can_finish_aux (remaining s) s h rfl
  exact ⟨more, s', hrun, inv_run h hrun, hex⟩

theorem exited_facts {s : State} (h : Inv s) (he : s.pc = MainPc.exited) :
    bothJoined s = true ∧ canMove s = false ∧ s.counter = 2000000 ∧
      s.out = expectedOutput ∧ s.exitStatus = some 0 := by
  have hj : bothJoined s = true := by simp [bothJoined, he]
  obtain ⟨f1, f2, -, -, hc⟩ := joined_facts h hj
  obtain ⟨-, -, -, -, -, -, -, -, -, h10⟩ := h
  rw [he] at h10
  obtain ⟨-, -, e3, e4⟩ := h10
  refine ⟨hj, ?_, hc, e3, e4⟩
  simp [canMove, step, mainStep, he, f1, f2]

/-! ## The claims -/

/-- C1 (no lost updates): in every execution of the program, under every
schedule of the steps of `main`, `t1` and `t2`, once `main` has passed both
joins the counter holds 2000000, and that is the value the read of the counter
returns; and every execution can be continued to a state in which `main` has
passed both joins and reads 2000000. -/
theorem no_lost_updates (sched : List Actor) (s : State)
    (h : run sched init = some s) :
    (bothJoined s = true → s.counter = 2000000 ∧ (read s).1 = 2000000) ∧
    ∃ (more : List Actor) (s' : State),
      run more s = some s' ∧ bothJoined s' = true ∧ (read s').1 = 2000000 := by
  have hinv := inv_reachable h
  constructor
  · intro hj
    exact ⟨(joined_facts hinv hj).2.2.2.2, (joined_facts hinv hj).2.2.2.2⟩
  · obtain ⟨more, s', hrun, hinv', hex⟩ := can_finish hinv
    exact ⟨more, s', hrun, (exited_facts hinv' hex).1, (exited_facts hinv' hex).2.2.1⟩

theorem no_lost_updates_witness :
    run scheduleToPrint init = some printState ∧ bothJoined printState = true ∧
      printState.counter = 2000000 ∧ (read printState).1 = 2000000 :=
  ⟨run_scheduleToPrint, by decide,
    (no_lost_updates scheduleToPrint printState run_scheduleToPrint).1 (by decide)⟩

/-- C3 (single-thread baseline): `incrementCounter` run alone from a counter
`c` within the range of `int` leaves the counter at `c + 1000000` reduced to 32
bits, which is `c + 1000000` itself when that does not exceed `INT_MAX`; from 0
it leaves 1000000; and a thread at the start of the loop that takes all its
1000001 steps with nobody else moving leaves exactly that value in the shared
counter and is finished. -/
theorem single_thread_baseline (c : Int) (hc0 : INT_MIN ≤ c) (hc : c ≤ INT_MAX) :
    incrementCounter 0 = 1000000 ∧
    incrementCounter c = wrap32 (c + 1000000) ∧
    (c + 1000000 ≤ INT_MAX → incrementCounter c = c + 1000000) ∧
    ∀ (t2 : Thread) (pc : MainPc) (out : String) (ex : Option Int),
      run (List.replicate 1000001 Actor.t1)
          { counter := c, t1 := { phase := Phase.running, i := 0 }, t2 := t2, pc := pc,
            out := out, exitStatus := ex } =
        some { counter := incrementCounter c,
               t1 := { phase := Phase.finished, i := 1000000 },
               t2 := t2, pc := pc, out := out, exitStatus := ex } := by
  unfold INT_MIN at hc0
  unfold INT_MAX at hc
  refine ⟨?_, incrementCounter_eq c hc0 hc, ?_, ?_⟩
  · rw [incrementCounter_eq 0 (by norm_num) (by norm_num)]
    decide
  · intro hle
    unfold INT_MAX at hle
    rw [incrementCounter_eq c hc0 hc]
    exact wrap32_of_range _ (by omega) (by omega)
  · intro t2 pc out ex
    rw [incrementCounter_eq c hc0 hc]
    exact run_t1_whole c t2 pc out ex hc0 hc

theorem single_thread_baseline_witness :
    incrementCounter 0 = 1000000 ∧ incrementCounter 2147483647 = -2146483649 := by
  have h := single_thread_baseline 2147483647 (by decide) (by decide)
  refine ⟨h.1, ?_⟩
  rw [h.2.1]
  decide

/-- C4 (process entry point): in every execution, when `main` has returned the
text written to standard output is exactly `Counter value: 2000000` followed by
a newline, which is `Counter value: ` followed by the decimal rendering of the
final counter and a newline, and the exit status is 0; before `main` has
returned there is no exit status; and every execution can be continued until
`main` has returned with that output and exit status 0. -/
theorem main_output (sched : List Actor) (s : State)
    (h : run sched init = some s) :
    (s.pc = MainPc.exited →
      s.out = "Counter value: 2000000\n" ∧
      s.out = "Counter value: " ++ toString s.counter ++ "\n" ∧
      s.exitStatus = some 0) ∧
    (s.pc ≠ MainPc.exited → s.exitStatus = none) ∧
    ∃ (more : List Actor) (s' : State),
      run more s = some s' ∧ s'.pc = MainPc.exited ∧
        s'.out = "Counter value: 2000000\n" ∧ s'.exitStatus = some 0 := by
  have hinv := inv_reachable h
  refine ⟨?_, ?_, ?_⟩
  · intro he
    obtain ⟨-, -, hc, e3, e4⟩ := exited_facts hinv he
    refine ⟨e3, ?_, e4⟩
    rw [e3, hc]
    decide
  · intro hne
    obtain ⟨c, t1, t2, pc, out, ex⟩ := s
    obtain ⟨-, -, -, -, -, -, -, -, -, h10⟩ := hinv
    simp only at h10 hne
    cases pc <;> first
      | exact h10.2.2.2
      | exact absurd rfl hne
  · obtain ⟨more, s', hrun, hinv', hex⟩ := can_finish hinv
    obtain ⟨-, -, -, e3, e4⟩ := exited_facts hinv' hex
    exact ⟨more, s', hrun, hex, e3, e4⟩

theorem main_output_witness :
    run fullSchedule init = some finalState ∧
      finalState.out = "Counter value: 2000000\n" ∧ finalState.exitStatus = some 0 :=
  ⟨run_fullSchedule, ((main_output fullSchedule finalState run_fullSchedule).1 rfl).1,
    ((main_output fullSchedule finalState run_fullSchedule).1 rfl).2.2⟩

/-- C5 (idempotent read): in every execution, once `main` has passed both
joins, a read leaves the state as it was, any number of consecutive reads all
return the value of the counter, and whatever the process does afterwards
contains no increment and a read then still returns the same value. -/
theorem read_idempotent (sched : List Actor) (s : State)
    (h : run sched init = some s) (hj : bothJoined s = true) (n : Nat) :
    (read s).2 = s ∧
    readMany n s = (List.replicate n (read s).1, s) ∧
    ∀ (more : List Actor) (s' : State), run more s = some s' →
      increments more s = 0 ∧ (read s').1 = (read s).1 := by
  refine ⟨rfl, readMany_eq n s, ?_⟩
  intro more s' hr
  exact no_increment_after_join (inv_reachable h) hj hr

theorem read_idempotent_witness :
    readMany 3 printState = ([2000000, 2000000, 2000000], printState) ∧
      (read finalState).1 = (read printState).1 := by
  have h := read_idempotent scheduleToPrint printState run_scheduleToPrint (by decide) 3
  refine ⟨h.2.1, ?_⟩
  exact (h.2.2 [Actor.main, Actor.main] finalState (by decide)).2

/-- C8 (overflow is unreachable): in every state reached by any schedule the
counter lies in `0 .. 2000000` and both loop variables lie in `0 .. 1000000`,
strictly inside the range of a 32-bit `int`, so that the 32-bit reduction in
`counter++` and in `i++` returns the mathematical successor: no increment
wraps. -/
theorem overflow_unreachable (sched : List Actor) (s : State)
    (h : run sched init = some s) :
    (0 ≤ s.counter ∧ s.counter ≤ 2000000) ∧
    (0 ≤ s.t1.i ∧ s.t1.i ≤ 1000000) ∧
    (0 ≤ s.t2.i ∧ s.t2.i ≤ 1000000) ∧
    (INT_MIN < 0 ∧ 2000000 < INT_MAX) ∧
    wrap32 (s.counter + 1) = s.counter + 1 ∧
    wrap32 (s.t1.i + 1) = s.t1.i + 1 ∧
    wrap32 (s.t2.i + 1) = s.t2.i + 1 ∧
    ∀ (a : Actor) (s' : State), step a s = some s' →
      s'.counter = s.counter + (if performsIncrement a s = true then 1 else 0) ∧
      s'.t1.i = s.t1.i + (if a = Actor.t1 ∧ performsIncrement a s = true then 1 else 0) ∧
      s'.t2.i = s.t2.i + (if a = Actor.t2 ∧ performsIncrement a s = true then 1 else 0) := by
  have hinv := inv_reachable h
  obtain ⟨h1, h2, h3, h4, h5, -⟩ := hinv
  refine ⟨⟨by omega, by omega⟩, ⟨h1, h2⟩, ⟨h3, h4⟩, ⟨by decide, by decide⟩,
    wrap32_of_range _ (by omega) (by omega), wrap32_of_range _ (by omega) (by omega),
    wrap32_of_range _ (by omega) (by omega), ?_⟩
  intro a s' hs
  exact ⟨counter_step (inv_reachable h) hs, i1_step (inv_reachable h) hs,
    i2_step (inv_reachable h) hs⟩

theorem overflow_unreachable_witness :
    run fullSchedule init = some finalState ∧
      wrap32 (finalState.counter + 1) = finalState.counter + 1 :=
  ⟨run_fullSchedule, (overflow_unreachable fullSchedule finalState run_fullSchedule).2.2.2.2.1⟩

/-- C9 (workers run to completion): in every execution the steps taken so far
and the steps still to take add up to 2000008, so no execution is longer than
that and none contains more than 2000000 increments; a running thread can
always take its next step, whatever the state of the other; a thread that has
finished has executed exactly 1000000 increments; as long as `main` has not
returned some actor can move; an execution that cannot be continued has `main`
returned past both joins after exactly 2000008 steps, 2000000 of them
increments; and every execution can be continued to such an end. -/
theorem workers_run_to_completion (sched : List Actor) (s : State)
    (h : run sched init = some s) :
    sched.length + remaining s = 2000008 ∧
    sched.length ≤ 2000008 ∧
    increments sched init ≤ 2000000 ∧
    (s.t1.phase = Phase.running → (step Actor.t1 s).isSome = true) ∧
    (s.t2.phase = Phase.running → (step Actor.t2 s).isSome = true) ∧
    (s.t1.phase = Phase.finished → incrementsBy Actor.t1 sched init = 1000000) ∧
    (s.t2.phase = Phase.finished → incrementsBy Actor.t2 sched init = 1000000) ∧
    (bothJoined s = true → increments sched init = 2000000) ∧
    (s.pc ≠ MainPc.exited → canMove s = true) ∧
    (canMove s = false →
      s.pc = MainPc.exited ∧ bothJoined s = true ∧ sched.length = 2000008 ∧
        increments sched init = 2000000) ∧
    ∃ (more : List Actor) (s' : State),
      run (sched ++ more) init = some s' ∧ canMove s' = false ∧
        s'.t1.phase = Phase.finished ∧ s'.t2.phase = Phase.finished := by
  have hinv := inv_reachable h
  have hrem := remaining_run inv_init h
  rw [remaining_init] at hrem
  have e0 := increments_run inv_init h
  have e1 := incrementsBy_t1_run inv_init h
  have e2 := incrementsBy_t2_run inv_init h
  have i0 : init.counter = 0 := rfl
  have i1 : init.t1.i = 0 := rfl
  have i2 : init.t2.i = 0 := rfl
  have hle := counter_le hinv
  have hjoin : bothJoined s = true → increments sched init = 2000000 := by
    intro hj
    have := (joined_facts hinv hj).2.2.2.2
    omega
  refine ⟨hrem, by omega, by omega, thread_never_blocks_t1 s, thread_never_blocks_t2 s,
    ?_, ?_, hjoin, canMove_of_inv hinv, ?_, ?_⟩
  · intro hf
    have := hinv.2.2.2.2.2.2.2.1 hf
    omega
  · intro hf
    have := hinv.2.2.2.2.2.2.2.2.1 hf
    omega
  · intro hstuck
    have hpc : s.pc = MainPc.exited := by
      by_contra hne
      rw [canMove_of_inv hinv hne] at hstuck
      exact absurd hstuck (by decide)
    have hj : bothJoined s = true := by simp [bothJoined, hpc]
    have hz := remaining_exited hinv hpc
    exact ⟨hpc, hj, by omega, hjoin hj⟩
  · obtain ⟨more, s', hrun, hinv', hex⟩ := can_finish hinv
    obtain ⟨hj, hstuck, -⟩ := exited_facts hinv' hex
    obtain ⟨f1, f2, -⟩ := joined_facts hinv' hj
    refine ⟨more, s', ?_, hstuck, f1, f2⟩
    rw [run_append, h, Option.some_bind]
    exact hrun

theorem workers_run_to_completion_witness :
    run fullSchedule init = some finalState ∧ canMove finalState = false ∧
      fullSchedule.length = 2000008 ∧ increments fullSchedule init = 2000000 ∧
      incrementsBy Actor.t1 fullSchedule init = 1000000 ∧
      incrementsBy Actor.t2 fullSchedule init = 1000000 := by
  have h := workers_run_to_completion fullSchedule finalState run_fullSchedule
  have hs : canMove finalState = false := by decide
  exact ⟨run_fullSchedule, hs, (h.2.2.2.2.2.2.2.2.2.1 hs).2.2.1,
    (h.2.2.2.2.2.2.2.2.2.1 hs).2.2.2, h.2.2.2.2.2.1 rfl, h.2.2.2.2.2.2.1 rfl⟩

/-- C10 (the counter is read only after both joins): in every execution
nothing has been written while `main` has not passed both joins, and when
`main` is at the output statement, the one place where it reads the counter,
both threads have finished, each having executed exactly 1000000 increments,
neither can take a step any more, and whatever the process does from there on
contains no increment. -/
theorem read_only_after_join (sched : List Actor) (s : State)
    (h : run sched init = some s) :
    (bothJoined s = false → s.out = "") ∧
    (s.pc = MainPc.print →
      s.t1.phase = Phase.finished ∧ s.t2.phase = Phase.finished ∧
      incrementsBy Actor.t1 sched init = 1000000 ∧
      incrementsBy Actor.t2 sched init = 1000000 ∧
      step Actor.t1 s = none ∧ step Actor.t2 s = none ∧
      ∀ (more : List Actor) (s' : State), run more s = some s' →
        increments more s = 0 ∧ s'.counter = s.counter) := by
  have hinv := inv_reachable h
  constructor
  · intro hnj
    obtain ⟨c, ⟨p1, i1⟩, ⟨p2, i2⟩, pc, out, ex⟩ := s
    obtain ⟨-, -, -, -, -, -, -, -, -, h10⟩ := hinv
    simp only at h10
    cases pc <;> simp only [bothJoined] at hnj <;> first
      | exact h10.2.2.1
      | exact absurd hnj (by decide)
  · intro hp
    have hj : bothJoined s = true := by simp [bothJoined, hp]
    obtain ⟨f1, f2, a1, a2, -⟩ := joined_facts hinv hj
    have e1 := incrementsBy_t1_run inv_init h
    have e2 := incrementsBy_t2_run inv_init h
    have i1 : init.t1.i = 0 := rfl
    have i2 : init.t2.i = 0 := rfl
    refine ⟨f1, f2, by omega, by omega, by simp [step, f1], by simp [step, f2], ?_⟩
    intro more s' hr
    exact no_increment_after_join hinv hj hr

theorem read_only_after_join_witness :
    run scheduleToPrint init = some printState ∧
      incrementsBy Actor.t1 scheduleToPrint init = 1000000 ∧
      incrementsBy Actor.t2 scheduleToPrint init = 1000000 ∧
      step Actor.t1 printState = none ∧ step Actor.t2 printState = none := by
  have h := (read_only_after_join scheduleToPrint printState run_scheduleToPrint).2 rfl
  exact ⟨run_scheduleToPrint, h.2.2.1, h.2.2.2.1, h.2.2.2.2.1, h.2.2.2.2.2.1⟩

/-! ## The plain-`int` variant -/

theorem racyRun_append (xs ys : List Actor) (s : RacyState) :
    racyRun (xs ++ ys) s = (racyRun xs s).bind (racyRun ys) := by
  induction xs generalizing s with
  | nil => simp [racyRun]
  | cons a rest ih =>
      simp only [List.cons_append, racyRun]
      cases racyStep a s with
      | none => simp
      | some s1 => simpa using ih s1

theorem replicate_two_mul_succ (n : Nat) (a : Actor) :
    List.replicate (2 * (n + 1)) a = a :: a :: List.replicate (2 * n) a := by
  have h : 2 * (n + 1) = 2 * n + 1 + 1 := by ring
  rw [h, List.replicate_succ, List.replicate_succ]

theorem racy_t1_one_iteration (rest : List Actor) (c : Int) (i tmp : Int)
    (t2 : RacyThread) (pc : MainPc) (out : String) (ex : Option Int)
    (h0 : 0 ≤ i) (h1 : i < 1000000) (hc0 : 0 ≤ c) (hc : c < 2147483647) :
    racyRun (Actor.t1 :: Actor.t1 :: rest)
        { counter := c,
          t1 := { phase := Phase.running, i := i, pc := RacyPc.load, tmp := tmp },
          t2 := t2, pc := pc, out := out, exitStatus := ex } =
      racyRun rest
        { counter := c + 1,
          t1 := { phase := Phase.running, i := i + 1, pc := RacyPc.load, tmp := c },
          t2 := t2, pc := pc, out := out, exitStatus := ex } := by
  have w1 : wrap32 (i + 1) = i + 1 := wrap32_of_range _ (by omega) (by omega)
  have w2 : wrap32 (c + 1) = c + 1 := wrap32_of_range _ (by omega) (by omega)
  simp [racyRun, racyStep, racyIncrementCounterStep, h1, w1, w2]

theorem racy_t1_iterations (n : Nat) (c : Int) (i tmp : Int) (t2 : RacyThread)
    (pc : MainPc) (out : String) (ex : Option Int)
    (h0 : 0 ≤ i) (h1 : i + (n + 1 : Nat) ≤ 1000000)
    (hc0 : 0 ≤ c) (hc : c + (n + 1 : Nat) ≤ 2147483647) :
    racyRun (List.replicate (2 * (n + 1)) Actor.t1)
        { counter := c,
          t1 := { phase := Phase.running, i := i, pc := RacyPc.load, tmp := tmp },
          t2 := t2, pc := pc, out := out, exitStatus := ex } =
      some { counter := c + (n + 1 : Nat),
             t1 := { phase := Phase.running, i := i + (n + 1 : Nat), pc := RacyPc.load,
                     tmp := c + n },
             t2 := t2, pc := pc, out := out, exitStatus := ex } := by
  induction n generalizing c i tmp with
  | zero =>
      push_cast at h1 hc
      rw [replicate_two_mul_succ, racy_t1_one_iteration _ _ _ _ _ _ _ _ h0 (by omega) hc0
        (by omega)]
      simp [racyRun]
  | succ n ih =>
      push_cast at h1 hc
      rw [replicate_two_mul_succ, racy_t1_one_iteration _ _ _ _ _ _ _ _ h0 (by omega) hc0
        (by omega),
        ih (c + 1) (i + 1) c (by omega) (by push_cast; omega) (by omega)
          (by push_cast; omega)]
      simp only [Option.some.injEq, RacyState.mk.injEq, RacyThread.mk.injEq, true_and,
        and_true]
      push_cast
      refine ⟨by omega, by omega, by omega⟩

theorem racy_t2_one_iteration (rest : List Actor) (c : Int) (i tmp : Int)
    (t1 : RacyThread) (pc : MainPc) (out : String) (ex : Option Int)
    (h0 : 0 ≤ i) (h1 : i < 1000000) (hc0 : 0 ≤ c) (hc : c < 2147483647) :
    racyRun (Actor.t2 :: Actor.t2 :: rest)
        { counter := c, t1 := t1,
          t2 := { phase := Phase.running, i := i, pc := RacyPc.load, tmp := tmp },
          pc := pc, out := out, exitStatus := ex } =
      racyRun rest
        { counter := c + 1, t1 := t1,
          t2 := { phase := Phase.running, i := i + 1, pc := RacyPc.load, tmp := c },
          pc := pc, out := out, exitStatus := ex } := by
  have w1 : wrap32 (i + 1) = i + 1 := wrap32_of_range _ (by omega) (by omega)
  have w2 : wrap32 (c + 1) = c + 1 := wrap32_of_range _ (by omega) (by omega)
  simp [racyRun, racyStep, racyIncrementCounterStep, h1, w1, w2]

theorem racy_t2_iterations (n : Nat) (c : Int) (i tmp : Int) (t1 : RacyThread)
    (pc : MainPc) (out : String) (ex : Option Int)
    (h0 : 0 ≤ i) (h1 : i + (n + 1 : Nat) ≤ 1000000)
    (hc0 : 0 ≤ c) (hc : c + (n + 1 : Nat) ≤ 2147483647) :
    racyRun (List.replicate (2 * (n + 1)) Actor.t2)
        { counter := c, t1 := t1,
          t2 := { phase := Phase.running, i := i, pc := RacyPc.load, tmp := tmp },
          pc := pc, out := out, exitStatus := ex } =
      some { counter := c + (n + 1 : Nat), t1 := t1,
             t2 := { phase := Phase.running, i := i + (n + 1 : Nat), pc := RacyPc.load,
                     tmp := c + n },
             pc := pc, out := out, exitStatus := ex } := by
  induction n generalizing c i tmp with
  | zero =>
      push_cast at h1 hc
      rw [replicate_two_mul_succ, racy_t2_one_iteration _ _ _ _ _ _ _ _ h0 (by omega) hc0
        (by omega)]
      simp [racyRun]
  | succ n ih =>
      push_cast at h1 hc
      rw [replicate_two_mul_succ, racy_t2_one_iteration _ _ _ _ _ _ _ _ h0 (by omega) hc0
        (by omega),
        ih (c + 1) (i + 1) c (by omega) (by push_cast; omega) (by omega)
          (by push_cast; omega)]
      simp only [Option.some.injEq, RacyState.mk.injEq, RacyThread.mk.injEq, true_and,
        and_true]
      push_cast
      refine ⟨by omega, by omega, by omega⟩

theorem racyRun_lostUpdateSchedule :
    racyRun lostUpdateSchedule racyInit = some lostUpdateFinal := by
  unfold lostUpdateSchedule
  have h1 : racyRun [Actor.main, Actor.main, Actor.t1, Actor.t2, Actor.t1, Actor.t2] racyInit =
      some { counter := 1,
             t1 := { phase := Phase.running, i := 1, pc := RacyPc.load, tmp := 0 },
             t2 := { phase := Phase.running, i := 1, pc := RacyPc.load, tmp := 0 },
             pc := MainPc.joinT1, out := "", exitStatus := none } := by
    decide
  have h2 := racy_t1_iterations 999998 1 1 0
    { phase := Phase.running, i := 1, pc := RacyPc.load, tmp := 0 } MainPc.joinT1 "" none
    (by norm_num) (by norm_num) (by norm_num) (by norm_num)
  have h3 := racy_t2_iterations 999998 1000000 1 0
    { phase := Phase.finished, i := 1000000, pc := RacyPc.load, tmp := 999999 }
    MainPc.joinT1 "" none (by norm_num) (by norm_num) (by norm_num) (by norm_num)
  norm_num at h2 h3
  rw [racyRun_append, h1, Option.some_bind, racyRun_append, h2, Option.some_bind,
    racyRun_append]
  have h4 : racyRun [Actor.t1]
      { counter := 1000000,
        t1 := { phase := Phase.running, i := 1000000, pc := RacyPc.load, tmp := 999999 },
        t2 := { phase := Phase.running, i := 1, pc := RacyPc.load, tmp := 0 },
        pc := MainPc.joinT1, out := "", exitStatus := none } =
      some { counter := 1000000,
             t1 := { phase := Phase.finished, i := 1000000, pc := RacyPc.load, tmp := 999999 },
             t2 := { phase := Phase.running, i := 1, pc := RacyPc.load, tmp := 0 },
             pc := MainPc.joinT1, out := "", exitStatus := none } := by
    decide
  rw [h4, Option.some_bind, racyRun_append, h3, Option.some_bind, racyRun_append]
  decide

/-- C6 (negative control): with the plain `int` counter of the commented-out
declaration, where `counter++` is a load followed by a store of the loaded
value plus one, there is a schedule of the two threads under which both finish,
`main` passes both joins, and the counter it reads and prints is 1999999,
strictly less than 2000000. -/
theorem racy_counter_loses_updates :
    ∃ (sched : List Actor) (s : RacyState),
      racyRun sched racyInit = some s ∧
      s.t1.phase = Phase.finished ∧ s.t2.phase = Phase.finished ∧
      s.pc = MainPc.exited ∧
      s.counter = 1999999 ∧ s.counter < 2000000 ∧
      s.out = "Counter value: 1999999\n" :=
  ⟨lostUpdateSchedule, lostUpdateFinal, racyRun_lostUpdateSchedule, rfl, rfl, rfl, rfl,
    by decide, rfl⟩

/-! ## The statement-level program -/

theorem abstraction_init : abstraction stmtInit = init := by
  decide

theorem loopInv_step (c : Int) (t : StmtThread) (h : LoopInv t) :
    LoopInv (incrementCounterStmt c t).2 := by
  obtain ⟨p, i, pc⟩ := t
  obtain ⟨h0, h1, h2⟩ := h
  simp only at h0 h1 h2
  cases pc
  · simp only [incrementCounterStmt]
    split
    · rename_i hlt
      exact ⟨h0, h1, fun _ => hlt⟩
    · exact ⟨h0, h1, fun hne => absurd rfl hne⟩
  · have hlt := h2 (by decide)
    exact ⟨h0, h1, fun _ => hlt⟩
  · have hlt := h2 (by decide)
    have w : wrap32 (i + 1) = i + 1 := wrap32_of_range _ (by omega) (by omega)
    simp only [incrementCounterStmt, w]
    exact ⟨by simp only; omega, by simp only; omega, fun hne => absurd rfl hne⟩

theorem abstractThread_stmt (c : Int) (t : StmtThread) (h : LoopInv t)
    (hrun : t.phase = Phase.running) :
    (t.pc = LoopPc.body ∧
      ((incrementCounterStmt c t).1, abstractThread (incrementCounterStmt c t).2) =
        incrementCounterStep c (abstractThread t)) ∨
    (t.pc = LoopPc.test ∧ ¬ t.i < 1000000 ∧
      ((incrementCounterStmt c t).1, abstractThread (incrementCounterStmt c t).2) =
        incrementCounterStep c (abstractThread t)) ∨
    (t.pc ≠ LoopPc.body ∧ (incrementCounterStmt c t).1 = c ∧
      abstractThread (incrementCounterStmt c t).2 = abstractThread t) := by
  obtain ⟨p, i, pc⟩ := t
  obtain ⟨h0, h1, h2⟩ := h
  simp only at h0 h1 h2 hrun
  subst hrun
  cases pc
  · by_cases hlt : i < 1000000
    · right; right
      simp [incrementCounterStmt, abstractThread, pending, hlt]
    · right; left
      simp [incrementCounterStmt, incrementCounterStep, abstractThread, pending, hlt]
  · left
    have hlt := h2 (by decide)
    have w : wrap32 (i + 1) = i + 1 := wrap32_of_range _ (by omega) (by omega)
    simp [incrementCounterStmt, incrementCounterStep, abstractThread, pending, hlt, w]
  · right; right
    have hlt := h2 (by decide)
    have w : wrap32 (i + 1) = i + 1 := wrap32_of_range _ (by omega) (by omega)
    simp [incrementCounterStmt, abstractThread, pending, w]

theorem stmt_simulation_step {a : Actor} {s s' : StmtState}
    (h1 : LoopInv s.t1) (h2 : LoopInv s.t2) (hs : stmtStep a s = some s') :
    (step a (abstraction s) = some (abstraction s') ∧
      performsIncrement a (abstraction s) = stmtPerformsIncrement a s) ∨
    (abstraction s' = abstraction s ∧ stmtPerformsIncrement a s = false) := by
  obtain ⟨c, t1, t2, pc, out, ex⟩ := s
  simp only at h1 h2
  cases a
  · left
    refine ⟨?_, rfl⟩
    cases pc <;> simp only [stmtStep, stmtMainStep] at hs
    · cases hs; simp [step, mainStep, abstraction, abstractThread, pending]
    · cases hs; simp [step, mainStep, abstraction, abstractThread, pending]
    · split at hs
      · rename_i hf
        cases hs; simp [step, mainStep, abstraction, abstractThread, hf]
      · cases hs
    · split at hs
      · rename_i hf
        cases hs; simp [step, mainStep, abstraction, abstractThread, hf]
      · cases hs
    · cases hs; simp [step, mainStep, abstraction]
    · cases hs; simp [step, mainStep, abstraction]
    · cases hs
  · simp only [stmtStep] at hs
    split at hs
    · rename_i hrun
      cases hs
      have hr : (abstractThread t1).phase = Phase.running := hrun
      rcases abstractThread_stmt c t1 h1 hrun with ⟨hb, e⟩ | ⟨ht, hge, e⟩ | ⟨hb, e1, e2⟩
      · left
        refine ⟨?_, ?_⟩
        · simp only [step, abstraction, hr, if_true, ← e]
        · have hlt := h1.2.2 (by rw [hb]; decide)
          simp [performsIncrement, stmtPerformsIncrement, abstraction, abstractThread,
            pending, hrun, hb, hlt]
      · left
        refine ⟨?_, ?_⟩
        · simp only [step, abstraction, hr, if_true, ← e]
        · simp [performsIncrement, stmtPerformsIncrement, abstraction, abstractThread,
            pending, hrun, ht, hge]
      · right
        refine ⟨?_, ?_⟩
        · simp only [abstraction, e1, e2]
        · simp [stmtPerformsIncrement, hb]
    · cases hs
  · simp only [stmtStep] at hs
    split at hs
    · rename_i hrun
      cases hs
      have hr : (abstractThread t2).phase = Phase.running := hrun
      rcases abstractThread_stmt c t2 h2 hrun with ⟨hb, e⟩ | ⟨ht, hge, e⟩ | ⟨hb, e1, e2⟩
      · left
        refine ⟨?_, ?_⟩
        · simp only [step, abstraction, hr, if_true, ← e]
        · have hlt := h2.2.2 (by rw [hb]; decide)
          simp [performsIncrement, stmtPerformsIncrement, abstraction, abstractThread,
            pending, hrun, hb, hlt]
      · left
        refine ⟨?_, ?_⟩
        · simp only [step, abstraction, hr, if_true, ← e]
        · simp [performsIncrement, stmtPerformsIncrement, abstraction, abstractThread,
            pending, hrun, ht, hge]
      · right
        refine ⟨?_, ?_⟩
        · simp only [abstraction, e1, e2]
        · simp [stmtPerformsIncrement, hb]
    · cases hs

theorem loopInv_stmtStep {a : Actor} {s s' : StmtState}
    (h1 : LoopInv s.t1) (h2 : LoopInv s.t2) (hs : stmtStep a s = some s') :
    LoopInv s'.t1 ∧ LoopInv s'.t2 := by
  obtain ⟨c, t1, t2, pc, out, ex⟩ := s
  simp only at h1 h2
  have hnew : LoopInv { phase := Phase.running, i := 0, pc := LoopPc.test } :=
    ⟨le_refl 0, by norm_num, fun hne => absurd rfl hne⟩
  cases a
  · cases pc <;> simp only [stmtStep, stmtMainStep] at hs
    · cases hs; exact ⟨hnew, h2⟩
    · cases hs; exact ⟨h1, hnew⟩
    · split at hs
      · cases hs; exact ⟨h1, h2⟩
      · cases hs
    · split at hs
      · cases hs; exact ⟨h1, h2⟩
      · cases hs
    · cases hs; exact ⟨h1, h2⟩
    · cases hs; exact ⟨h1, h2⟩
    · cases hs
  · simp only [stmtStep] at hs
    split at hs
    · cases hs; exact ⟨loopInv_step c t1 h1, h2⟩
    · cases hs
  · simp only [stmtStep] at hs
    split at hs
    · cases hs; exact ⟨h1, loopInv_step c t2 h2⟩
    · cases hs

theorem stmtInv_init : StmtInv stmtInit := by
  refine ⟨?_, ?_, ?_⟩
  · exact ⟨le_refl 0, by decide, fun hne => absurd rfl hne⟩
  · exact ⟨le_refl 0, by decide, fun hne => absurd rfl hne⟩
  · rw [abstraction_init]
    exact inv_init

theorem stmtInv_step {a : Actor} {s s' : StmtState} (h : StmtInv s)
    (hs : stmtStep a s = some s') : StmtInv s' := by
  obtain ⟨h1, h2, hinv⟩ := h
  obtain ⟨l1, l2⟩ := loopInv_stmtStep h1 h2 hs
  refine ⟨l1, l2, ?_⟩
  rcases stmt_simulation_step h1 h2 hs with ⟨hstep, -⟩ | ⟨heq, -⟩
  · exact inv_step hinv hstep
  · rw [heq]
    exact hinv

theorem stmtInv_run {sched : List Actor} {s s' : StmtState} (h : StmtInv s)
    (hs : stmtRun sched s = some s') : StmtInv s' := by
  induction sched generalizing s with
  | nil =>
      simp only [stmtRun, Option.some.injEq] at hs
      subst hs
      exact h
  | cons a rest ih =>
      simp only [stmtRun] at hs
      cases hstep : stmtStep a s with
      | none => simp [hstep] at hs
      | some s1 =>
          rw [hstep] at hs
          exact ih (stmtInv_step h hstep) hs

theorem stmt_refines {sched : List Actor} {s s' : StmtState} (h : StmtInv s)
    (hs : stmtRun sched s = some s') :
    ∃ sched' : List Actor,
      run sched' (abstraction s) = some (abstraction s') ∧
        increments sched' (abstraction s) = stmtIncrements sched s := by
  induction sched generalizing s with
  | nil =>
      simp only [stmtRun, Option.some.injEq] at hs
      subst hs
      exact ⟨[], rfl, rfl⟩
  | cons a rest ih =>
      simp only [stmtRun] at hs
      cases hstep : stmtStep a s with
      | none => simp [hstep] at hs
      | some s1 =>
          rw [hstep] at hs
          obtain ⟨sched', hrun, hcount⟩ := ih (stmtInv_step h hstep) hs
          rcases stmt_simulation_step h.1 h.2.1 hstep with ⟨hst, hp⟩ | ⟨heq, hp⟩
          · refine ⟨a :: sched', ?_, ?_⟩
            · simp only [run, hst]
              exact hrun
            · simp only [increments, hst, stmtIncrements, hstep, hp, hcount]
          · refine ⟨sched', ?_, ?_⟩
            · rw [← heq]
              exact hrun
            · rw [← heq, hcount]
              simp [stmtIncrements, hstep, hp]

theorem stmt_counter_step {a : Actor} {s s' : StmtState} (h : StmtInv s)
    (hs : stmtStep a s = some s') :
    s'.counter = s.counter + (if stmtPerformsIncrement a s = true then 1 else 0) := by
  rcases stmt_simulation_step h.1 h.2.1 hs with ⟨hst, hp⟩ | ⟨heq, hp⟩
  · have := counter_step h.2.2 hst
    rw [hp] at this
    exact this
  · have e : (abstraction s').counter = (abstraction s).counter := by rw [heq]
    have e' : s'.counter = s.counter := e
    simp [hp, e']

theorem stmt_completed_t1_step {a : Actor} {s s' : StmtState} (h : StmtInv s)
    (hs : stmtStep a s = some s') :
    s'.t1.i + pending s'.t1 = s.t1.i + pending s.t1 +
      (if a = Actor.t1 ∧ stmtPerformsIncrement a s = true then 1 else 0) := by
  rcases stmt_simulation_step h.1 h.2.1 hs with ⟨hst, hp⟩ | ⟨heq, hp⟩
  · have := i1_step h.2.2 hst
    rw [hp] at this
    exact this
  · have e : (abstraction s').t1.i = (abstraction s).t1.i := by rw [heq]
    have e' : s'.t1.i + pending s'.t1 = s.t1.i + pending s.t1 := e
    simp [hp, e']

theorem stmt_completed_t2_step {a : Actor} {s s' : StmtState} (h : StmtInv s)
    (hs : stmtStep a s = some s') :
    s'.t2.i + pending s'.t2 = s.t2.i + pending s.t2 +
      (if a = Actor.t2 ∧ stmtPerformsIncrement a s = true then 1 else 0) := by
  rcases stmt_simulation_step h.1 h.2.1 hs with ⟨hst, hp⟩ | ⟨heq, hp⟩
  · have := i2_step h.2.2 hst
    rw [hp] at this
    exact this
  · have e : (abstraction s').t2.i = (abstraction s).t2.i := by rw [heq]
    have e' : s'.t2.i + pending s'.t2 = s.t2.i + pending s.t2 := e
    simp [hp, e']

theorem stmtIncrements_run {sched : List Actor} {s s' : StmtState} (h : StmtInv s)
    (hs : stmtRun sched s = some s') :
    (stmtIncrements sched s : Int) = s'.counter - s.counter := by
  induction sched generalizing s with
  | nil =>
      simp only [stmtRun, Option.some.injEq] at hs
      subst hs
      simp [stmtIncrements]
  | cons a rest ih =>
      simp only [stmtRun] at hs
      cases hstep : stmtStep a s with
      | none => simp [hstep] at hs
      | some s1 =>
          rw [hstep] at hs
          have h1 := ih (stmtInv_step h hstep) hs
          have h2 := stmt_counter_step h hstep
          simp only [stmtIncrements, hstep]
          by_cases hp : stmtPerformsIncrement a s = true
          · rw [if_pos hp] at h2 ⊢
            push_cast
            omega
          · rw [if_neg hp] at h2 ⊢
            push_cast
            omega

theorem stmtIncrementsBy_t1_run {sched : List Actor} {s s' : StmtState} (h : StmtInv s)
    (hs : stmtRun sched s = some s') :
    (stmtIncrementsBy Actor.t1 sched s : Int) =
      (s'.t1.i + pending s'.t1) - (s.t1.i + pending s.t1) := by
  induction sched generalizing s with
  | nil =>
      simp only [stmtRun, Option.some.injEq] at hs
      subst hs
      simp [stmtIncrementsBy]
  | cons a rest ih =>
      simp only [stmtRun] at hs
      cases hstep : stmtStep a s with
      | none => simp [hstep] at hs
      | some s1 =>
          rw [hstep] at hs
          have h1 := ih (stmtInv_step h hstep) hs
          have h2 := stmt_completed_t1_step h hstep
          simp only [stmtIncrementsBy, hstep]
          by_cases hp : (a = Actor.t1 ∧ stmtPerformsIncrement a s = true)
          · rw [if_pos hp] at h2 ⊢
            push_cast
            omega
          · rw [if_neg hp] at h2 ⊢
            push_cast
            omega

theorem stmtIncrementsBy_t2_run {sched : List Actor} {s s' : StmtState} (h : StmtInv s)
    (hs : stmtRun sched s = some s') :
    (stmtIncrementsBy Actor.t2 sched s : Int) =
      (s'.t2.i + pending s'.t2) - (s.t2.i + pending s.t2) := by
  induction sched generalizing s with
  | nil =>
      simp only [stmtRun, Option.some.injEq] at hs
      subst hs
      simp [stmtIncrementsBy]
  | cons a rest ih =>
      simp only [stmtRun] at hs
      cases hstep : stmtStep a s with
      | none => simp [hstep] at hs
      | some s1 =>
          rw [hstep] at hs
          have h1 := ih (stmtInv_step h hstep) hs
          have h2 := stmt_completed_t2_step h hstep
          simp only [stmtIncrementsBy, hstep]
          by_cases hp : (a = Actor.t2 ∧ stmtPerformsIncrement a s = true)
          · rw [if_pos hp] at h2 ⊢
            push_cast
            omega
          · rw [if_neg hp] at h2 ⊢
            push_cast
            omega

theorem stmt_reachable_abstraction {sched : List Actor} {s : StmtState}
    (h : stmtRun sched stmtInit = some s) :
    ∃ sched' : List Actor,
      run sched' init = some (abstraction s) ∧
        increments sched' init = stmtIncrements sched stmtInit := by
  have := stmt_refines stmtInv_init h
  rw [abstraction_init] at this
  exact this

theorem stmt_final_counter {sched : List Actor} {s : StmtState}
    (h : stmtRun sched stmtInit = some s) (hj : bothJoined (abstraction s) = true) :
    s.counter = 2000000 ∧ s.t1.phase = Phase.finished ∧ s.t2.phase = Phase.finished :=
  ⟨(joined_facts (stmtInv_run stmtInv_init h).2.2 hj).2.2.2.2,
    (joined_facts (stmtInv_run stmtInv_init h).2.2 hj).1,
    (joined_facts (stmtInv_run stmtInv_init h).2.2 hj).2.1⟩

/-- C7, as the claim states it, fails: after the schedule in which `main` starts
both threads and each thread passes its loop test and executes `counter++`, the
counter is 2 while both loop variables are still 0, so the counter is not the
sum of the loop variables. -/
theorem loop_variables_lag_behind_counter :
    stmtRun lagSchedule stmtInit = some lagState ∧
      lagState.counter = 2 ∧ lagState.t1.i + lagState.t2.i = 0 ∧
      lagState.counter ≠ lagState.t1.i + lagState.t2.i := by
  decide

/-- C7, amended: the counter is created with the value 0, and in every state
reached by any schedule of the statements of `main`, `t1` and `t2` the counter
equals the number of executions of `counter++` so far, which is the sum of the
two loop variables plus one for each thread that has executed `counter++` but
not yet the `i++` that follows, each thread contributing its own number of
increments; it is the sum of the two loop variables whenever neither thread is
between its `counter++` and its `i++`; every step that executes `counter++`
raises the counter by exactly 1 and every other step leaves it unchanged. -/
theorem counter_counts_increments (sched : List Actor) (s : StmtState)
    (h : stmtRun sched stmtInit = some s) :
    stmtInit.counter = 0 ∧
    s.counter = (stmtIncrements sched stmtInit : Int) ∧
    s.counter = (s.t1.i + pending s.t1) + (s.t2.i + pending s.t2) ∧
    s.t1.i + pending s.t1 = (stmtIncrementsBy Actor.t1 sched stmtInit : Int) ∧
    s.t2.i + pending s.t2 = (stmtIncrementsBy Actor.t2 sched stmtInit : Int) ∧
    (s.t1.pc ≠ LoopPc.incr → s.t2.pc ≠ LoopPc.incr → s.counter = s.t1.i + s.t2.i) ∧
    ∀ (a : Actor) (s' : StmtState), stmtStep a s = some s' →
      s'.counter = s.counter + (if stmtPerformsIncrement a s = true then 1 else 0) := by
  have hinv := stmtInv_run stmtInv_init h
  have e0 := stmtIncrements_run stmtInv_init h
  have e1 := stmtIncrementsBy_t1_run stmtInv_init h
  have e2 := stmtIncrementsBy_t2_run stmtInv_init h
  have i0 : stmtInit.counter = 0 := rfl
  have i1 : stmtInit.t1.i + pending stmtInit.t1 = 0 := by decide
  have i2 : stmtInit.t2.i + pending stmtInit.t2 = 0 := by decide
  have hsum : s.counter = (s.t1.i + pending s.t1) + (s.t2.i + pending s.t2) :=
    hinv.2.2.2.2.2.2.1
  refine ⟨rfl, by omega, hsum, by omega, by omega, ?_, ?_⟩
  · intro n1 n2
    have p1 : pending s.t1 = 0 := by simp [pending, n1]
    have p2 : pending s.t2 = 0 := by simp [pending, n2]
    omega
  · intro a s' hs
    exact stmt_counter_step hinv hs

theorem counter_counts_increments_witness :
    stmtRun [Actor.main, Actor.main, Actor.t1, Actor.t1, Actor.t1, Actor.t2, Actor.t2]
        stmtInit =
      some { counter := 2,
             t1 := { phase := Phase.running, i := 1, pc := LoopPc.test },
             t2 := { phase := Phase.running, i := 0, pc := LoopPc.incr },
             pc := MainPc.joinT1, out := "", exitStatus := none } ∧
    (2 : Int) =
      (stmtIncrements
        [Actor.main, Actor.main, Actor.t1, Actor.t1, Actor.t1, Actor.t2, Actor.t2]
        stmtInit : Int) :=
  ⟨by decide,
    (counter_counts_increments
      [Actor.main, Actor.main, Actor.t1, Actor.t1, Actor.t1, Actor.t2, Actor.t2]
      { counter := 2,
        t1 := { phase := Phase.running, i := 1, pc := LoopPc.test },
        t2 := { phase := Phase.running, i := 0, pc := LoopPc.incr },
        pc := MainPc.joinT1, out := "", exitStatus := none } (by decide)).2.1⟩

/-! ## The entry point of the specification -/

theorem sum_map_set_nat (f : Worker → Nat) (l : List Worker) (j : Nat) (w w' : Worker)
    (h : l[j]? = some w) :
    ((l.set j w').map f).sum + f w = (l.map f).sum + f w' := by
  induction l generalizing j with
  | nil => simp at h
  | cons x xs ih =>
      cases j with
      | zero =>
          simp only [List.getElem?_cons_zero, Option.some.injEq] at h
          subst h
          simp only [List.set_cons_zero, List.map_cons, List.sum_cons]
          omega
      | succ j =>
          simp only [List.getElem?_cons_succ] at h
          have := ih j h
          simp only [List.set_cons_succ, List.map_cons, List.sum_cons]
          omega

theorem sum_map_const (l : List Worker) (k : Nat) (h : ∀ w ∈ l, w.performed = k) :
    (l.map Worker.performed).sum = l.length * k := by
  induction l with
  | nil => simp
  | cons x xs ih =>
      have hx : x.performed = k := h x (List.mem_cons_self x xs)
      have hxs := ih (fun w hw => h w (List.mem_cons_of_mem x hw))
      simp only [List.map_cons, List.sum_cons, List.length_cons, hx, hxs, Nat.succ_mul]
      omega

theorem sum_map_le (l : List Worker) (k : Nat) (h : ∀ w ∈ l, w.performed ≤ k) :
    (l.map Worker.performed).sum ≤ l.length * k := by
  induction l with
  | nil => simp
  | cons x xs ih =>
      have hx : x.performed ≤ k := h x (List.mem_cons_self x xs)
      have hxs := ih (fun w hw => h w (List.mem_cons_of_mem x hw))
      simp only [List.map_cons, List.sum_cons, List.length_cons, Nat.succ_mul]
      omega

theorem poolInv_init (T K : Nat) : PoolInv T K poolInit := by
  refine ⟨Nat.zero_le T, ?_, ?_, ?_, Nat.zero_le T, ?_⟩
  · intro w hw
    simp [poolInit] at hw
  · decide
  · intro j hj
    simp [poolInit] at hj
  · intro v hv
    simp [poolInit] at hv

theorem poolInv_step {T K : Nat} {a : PoolActor} {s s' : PoolState}
    (h : PoolInv T K s) (hs : poolStep T K a s = some s') : PoolInv T K s' := by
  obtain ⟨c, workers, joined, result⟩ := s
  obtain ⟨hlen, hthr, hcnt, hjoin, hjT, hres⟩ := h
  simp only at hlen hthr hcnt hjoin hjT hres
  cases a with
  | main =>
      simp only [poolStep, poolMainStep] at hs
      split at hs
      · rename_i hlt
        cases hs
        refine ⟨?_, ?_, ?_, ?_, hjT, ?_⟩
        · simp only [List.length_append, List.length_singleton]
          omega
        · intro w hw
          simp only [List.mem_append, List.mem_singleton] at hw
          rcases hw with hw | hw
          · exact hthr w hw
          · subst hw
            refine ⟨Nat.zero_le K, ?_, by decide⟩
            intro hf
            simp at hf
        · simp only [List.map_append, List.map_cons, List.map_nil, List.sum_append,
            List.sum_cons, List.sum_nil, add_zero]
          exact hcnt
        · intro j hj
          obtain ⟨w, hw, hf⟩ := hjoin j hj
          refine ⟨w, ?_, hf⟩
          have hjl : j < workers.length := by
            rcases List.getElem?_eq_some.mp hw with ⟨hl, -⟩
            exact hl
          simp only
          rw [List.getElem?_append_left hjl]
          exact hw
        · intro v hv
          have := (hres v hv).1
          omega
      · split at hs
        · rename_i hnlt hjlt
          split at hs
          · rename_i w hw
            split at hs
            · rename_i hfin
              cases hs
              refine ⟨hlen, hthr, hcnt, ?_, by simp only; omega, ?_⟩
              · intro j hj
                simp only at hj
                by_cases hjj : j < joined
                · exact hjoin j hjj
                · have : j = joined := by omega
                  subst this
                  exact ⟨w, hw, hfin⟩
              · intro v hv
                have := (hres v hv).2.1
                omega
            · cases hs
          · cases hs
        · rename_i hnlt hnjlt
          split at hs
          · cases hs
            refine ⟨hlen, hthr, hcnt, hjoin, hjT, ?_⟩
            intro v hv
            simp only [Option.some.injEq] at hv
            exact ⟨by simp only; omega, by simp only; omega, hv.symm⟩
          · cases hs
  | worker j =>
      simp only [poolStep] at hs
      split at hs
      · rename_i w hw
        split at hs
        · rename_i hrun
          cases hs
          have hwm : w ∈ workers := List.mem_iff_getElem?.mpr ⟨j, hw⟩
          obtain ⟨hwK, -⟩ := hthr w hwm
          have hnj : ∀ k, k < joined → k ≠ j := by
            intro k hk hkj
            subst hkj
            obtain ⟨u, hu, hf⟩ := hjoin k hk
            rw [hw] at hu
            cases hu
            rw [hrun] at hf
            exact absurd hf (by decide)
          have hjl : j < workers.length := by
            rcases List.getElem?_eq_some.mp hw with ⟨hl, -⟩
            exact hl
          have hsum := sum_map_set_nat Worker.performed workers j w (workerStep K c w).2 hw
          refine ⟨?_, ?_, ?_, ?_, hjT, ?_⟩
          · simp only [List.length_set]
            exact hlen
          · intro u hu
            rcases List.mem_or_eq_of_mem_set hu with hu | hu
            · exact hthr u hu
            · subst hu
              unfold workerStep
              split
              · rename_i hlt
                refine ⟨by simp only; omega, ?_, by simp only [hrun]; decide⟩
                intro hf
                simp only [hrun] at hf
                exact absurd hf (by decide)
              · rename_i hge
                refine ⟨hwK, ?_, by simp⟩
                intro _
                simp only
                omega
          · unfold workerStep at hsum ⊢
            split
            · rename_i hlt
              simp only [hlt, if_true] at hsum
              simp only [ConcurrentCounter.increment, hcnt]
              omega
            · rename_i hge
              simp only [hge, if_false] at hsum
              simp only [hcnt]
              omega
          · intro k hk
            obtain ⟨u, hu, hf⟩ := hjoin k hk
            refine ⟨u, ?_, hf⟩
            simp only
            rw [List.getElem?_set_ne (hnj k hk).symm]
            exact hu
          · intro v hv
            obtain ⟨e1, e2, -⟩ := hres v hv
            exact absurd rfl (hnj j (by omega))
        · cases hs
      · cases hs

theorem poolInv_run {T K : Nat} {sched : List PoolActor} {s s' : PoolState}
    (h : PoolInv T K s) (hs : poolRun T K sched s = some s') : PoolInv T K s' := by
  induction sched generalizing s with
  | nil =>
      simp only [poolRun, Option.some.injEq] at hs
      subst hs
      exact h
  | cons a rest ih =>
      simp only [poolRun] at hs
      cases hstep : poolStep T K a s with
      | none => simp [hstep] at hs
      | some s1 =>
          rw [hstep] at hs
          exact ih (poolInv_step h hstep) hs

theorem pool_result {T K : Nat} {s : PoolState} {v : Int} (h : PoolInv T K s)
    (hv : s.result = some v) :
    v = (T : Int) * (K : Int) ∧ s.joined = T ∧ s.workers.length = T ∧
      ∀ w ∈ s.workers, w.phase = Phase.finished ∧ w.performed = K := by
  obtain ⟨-, hthr, hcnt, hjoin, -, hres⟩ := h
  obtain ⟨e1, e2, e3⟩ := hres v hv
  have hfin : ∀ w ∈ s.workers, w.phase = Phase.finished ∧ w.performed = K := by
    intro w hw
    obtain ⟨j, hj⟩ := List.mem_iff_getElem?.mp hw
    have hjl : j < s.workers.length := by
      rcases List.getElem?_eq_some.mp hj with ⟨hl, -⟩
      exact hl
    obtain ⟨u, hu, hf⟩ := hjoin j (by omega)
    rw [hj] at hu
    cases hu
    exact ⟨hf, (hthr w hw).2.1 hf⟩
  refine ⟨?_, e2, e1, hfin⟩
  rw [e3, hcnt, sum_map_const _ K (fun w hw => (hfin w hw).2), e1]
  push_cast
  rfl

theorem pool_counter_bounds {T K : Nat} {s : PoolState} (h : PoolInv T K s) :
    0 ≤ s.counter.value ∧ s.counter.value ≤ (T : Int) * (K : Int) := by
  obtain ⟨hlen, hthr, hcnt, -⟩ := h
  have h1 := sum_map_le s.workers K (fun w hw => (hthr w hw).1)
  have h2 : s.workers.length * K ≤ T * K := Nat.mul_le_mul_right K hlen
  have h3 : ((s.workers.map Worker.performed).sum : Int) ≤ ((T * K : Nat) : Int) := by
    exact Int.ofNat_le.mpr (le_trans h1 h2)
  rw [Nat.cast_mul] at h3
  rw [hcnt]
  exact ⟨Int.natCast_nonneg _, h3⟩

theorem poolRemaining_step {T K : Nat} {a : PoolActor} {s s' : PoolState}
    (h : PoolInv T K s) (hs : poolStep T K a s = some s') :
    poolRemaining T K s' + 1 = poolRemaining T K s := by
  obtain ⟨c, workers, joined, result⟩ := s
  obtain ⟨hlen, hthr, -, -, hjT, hres⟩ := h
  simp only at hlen hthr hjT hres
  cases a with
  | main =>
      simp only [poolStep, poolMainStep] at hs
      split at hs
      · rename_i hlt
        cases hs
        obtain ⟨d, hd⟩ : ∃ d, T - workers.length = d + 1 := ⟨T - workers.length - 1, by omega⟩
        have hd' : T - (workers.length + 1) = d := by omega
        have hmul : (d + 1) * (K + 2) = d * (K + 2) + (K + 2) := by ring
        simp only [poolRemaining, List.length_append, List.length_singleton, List.map_append,
          List.map_cons, List.map_nil, List.sum_append, List.sum_cons, List.sum_nil,
          workerRemaining, hd, hd', hmul]
        omega
      · split at hs
        · rename_i hnlt hjlt
          split at hs
          · split at hs
            · cases hs
              simp only [poolRemaining]
              omega
            · cases hs
          · cases hs
        · split at hs
          · cases hs
            simp only [poolRemaining]
          · cases hs
  | worker j =>
      simp only [poolStep] at hs
      split at hs
      · rename_i w hw
        split at hs
        · rename_i hrun
          cases hs
          have hsum := sum_map_set_nat (workerRemaining K) workers j w
            (workerStep K c w).2 hw
          have hdec : workerRemaining K (workerStep K c w).2 + 1 = workerRemaining K w := by
            unfold workerStep
            split
            · rename_i hlt
              simp only [workerRemaining, hrun]
              omega
            · rename_i hge
              simp only [workerRemaining, hrun]
              omega
          simp only [poolRemaining, List.length_set]
          omega
        · cases hs
      · cases hs

theorem pool_progress {T K : Nat} {s : PoolState} (h : PoolInv T K s)
    (hnone : s.result = none) :
    ∃ (a : PoolActor) (s' : PoolState), poolStep T K a s = some s' := by
  obtain ⟨c, workers, joined, result⟩ := s
  obtain ⟨hlen, hthr, -, -, hjT, -⟩ := h
  simp only at hlen hthr hjT hnone
  subst hnone
  by_cases hlt : workers.length < T
  · exact ⟨PoolActor.main, _, by simp only [poolStep, poolMainStep, hlt, if_true]; rfl⟩
  · by_cases hjlt : joined < T
    · have hjl : joined < workers.length := by omega
      have hw : workers[joined]? = some workers[joined] :=
        List.getElem?_eq_some.mpr ⟨hjl, rfl⟩
      have hwm : workers[joined] ∈ workers := List.mem_iff_getElem?.mpr ⟨joined, hw⟩
      obtain ⟨-, -, hns⟩ := hthr _ hwm
      by_cases hfin : (workers[joined]).phase = Phase.finished
      · exact ⟨PoolActor.main, _, by
          simp only [poolStep, poolMainStep, hlt, if_false, hjlt, if_true, hw, hfin]; rfl⟩
      · have hrun : (workers[joined]).phase = Phase.running := by
          cases hp : (workers[joined]).phase with
          | notStarted => exact absurd hp hns
          | running => rfl
          | finished => exact absurd hp hfin
        exact ⟨PoolActor.worker joined, _, by simp only [poolStep, hw, hrun, if_true]; rfl⟩
    · exact ⟨PoolActor.main, _, by
        simp only [poolStep, poolMainStep, hlt, if_false, hjlt]; rfl⟩

theorem pool_can_finish_aux {T K : Nat} (n : Nat) :
    ∀ s : PoolState, PoolInv T K s → poolRemaining T K s ≤ n →
      ∃ (more : List PoolActor) (s' : PoolState) (v : Int),
        poolRun T K more s = some s' ∧ s'.result = some v := by
  induction n with
  | zero =>
      intro s _ hrem
      cases hr : s.result with
      | some v => exact ⟨[], s, v, rfl, hr⟩
      | none =>
          exfalso
          simp only [poolRemaining, hr] at hrem
          omega
  | succ n ih =>
      intro s hinv hrem
      cases hr : s.result with
      | some v => exact ⟨[], s, v, rfl, hr⟩
      | none =>
          obtain ⟨a, s1, hstep⟩ := pool_progress hinv hr
          have hdec := poolRemaining_step hinv hstep
          obtain ⟨more, s', v, hrun, hv⟩ := ih s1 (poolInv_step hinv hstep) (by omega)
          refine ⟨a :: more, s', v, ?_, hv⟩
          simp only [poolRun, hstep]
          exact hrun

theorem pool_can_finish {T K : Nat} {s : PoolState} (h : PoolInv T K s) :
    ∃ (more : List PoolActor) (s' : PoolState) (v : Int),
      poolRun T K more s = some s' ∧ s'.result = some v :=
  pool_can_finish_aux (poolRemaining T K s) s h (le_refl _)

theorem poolRun_append (T K : Nat) (xs ys : List PoolActor) (s : PoolState) :
    poolRun T K (xs ++ ys) s = (poolRun T K xs s).bind (poolRun T K ys) := by
  induction xs generalizing s with
  | nil => simp [poolRun]
  | cons a rest ih =>
      simp only [List.cons_append, poolRun]
      cases poolStep T K a s with
      | none => simp
      | some s1 => simpa using ih s1

theorem poolRun_cons_of_step {T K : Nat} {a : PoolActor} {s s' : PoolState}
    (rest : List PoolActor) (h : poolStep T K a s = some s') :
    poolRun T K (a :: rest) s = poolRun T K rest s' := by
  simp [poolRun, h]

theorem pool_worker0_step (T K : Nat) (c : Int) (p : Nat) (rest : List Worker)
    (joined : Nat) (result : Option Int) (h1 : p < K) :
    poolStep T K (PoolActor.worker 0)
        { counter := { value := c },
          workers := { phase := Phase.running, performed := p } :: rest,
          joined := joined, result := result } =
      some { counter := { value := c + 1 },
             workers := { phase := Phase.running, performed := p + 1 } :: rest,
             joined := joined, result := result } := by
  simp [poolStep, workerStep, ConcurrentCounter.increment, h1]

theorem pool_worker1_step (T K : Nat) (c : Int) (p : Nat) (w0 : Worker)
    (rest : List Worker) (joined : Nat) (result : Option Int) (h1 : p < K) :
    poolStep T K (PoolActor.worker 1)
        { counter := { value := c },
          workers := w0 :: { phase := Phase.running, performed := p } :: rest,
          joined := joined, result := result } =
      some { counter := { value := c + 1 },
             workers := w0 :: { phase := Phase.running, performed := p + 1 } :: rest,
             joined := joined, result := result } := by
  simp [poolStep, workerStep, ConcurrentCounter.increment, h1]

theorem pool_worker0_iterations (T K n : Nat) (c : Int) (p : Nat) (rest : List Worker)
    (joined : Nat) (result : Option Int) (h1 : p + n ≤ K) :
    poolRun T K (List.replicate n (PoolActor.worker 0))
        { counter := { value := c },
          workers := { phase := Phase.running, performed := p } :: rest,
          joined := joined, result := result } =
      some { counter := { value := c + n },
             workers := { phase := Phase.running, performed := p + n } :: rest,
             joined := joined, result := result } := by
  induction n generalizing c p with
  | zero => simp [poolRun]
  | succ n ih =>
      rw [List.replicate_succ,
        poolRun_cons_of_step _ (pool_worker0_step T K c p rest joined result (by omega)),
        ih (c + 1) (p + 1) (by omega)]
      simp only [Option.some.injEq, PoolState.mk.injEq, ConcurrentCounter.mk.injEq,
        List.cons.injEq, Worker.mk.injEq, true_and, and_true]
      push_cast
      constructor <;> omega

theorem pool_worker1_iterations (T K n : Nat) (c : Int) (p : Nat) (w0 : Worker)
    (rest : List Worker) (joined : Nat) (result : Option Int) (h1 : p + n ≤ K) :
    poolRun T K (List.replicate n (PoolActor.worker 1))
        { counter := { value := c },
          workers := w0 :: { phase := Phase.running, performed := p } :: rest,
          joined := joined, result := result } =
      some { counter := { value := c + n },
             workers := w0 :: { phase := Phase.running, performed := p + n } :: rest,
             joined := joined, result := result } := by
  induction n generalizing c p with
  | zero => simp [poolRun]
  | succ n ih =>
      rw [List.replicate_succ,
        poolRun_cons_of_step _ (pool_worker1_step T K c p w0 rest joined result (by omega)),
        ih (c + 1) (p + 1) (by omega)]
      simp only [Option.some.injEq, PoolState.mk.injEq, ConcurrentCounter.mk.injEq,
        List.cons.injEq, Worker.mk.injEq, true_and, and_true]
      push_cast
      constructor <;> omega

theorem pool_worker0_exit (K : Nat) (c : ConcurrentCounter) (w1 : Worker) (joined : Nat)
    (result : Option Int) :
    poolRun 2 K [PoolActor.worker 0]
        { counter := c, workers := [{ phase := Phase.running, performed := K }, w1],
          joined := joined, result := result } =
      some { counter := c, workers := [{ phase := Phase.finished, performed := K }, w1],
             joined := joined, result := result } := by
  simp [poolRun, poolStep, workerStep]

theorem pool_worker1_exit (K : Nat) (c : ConcurrentCounter) (w0 : Worker) (joined : Nat)
    (result : Option Int) :
    poolRun 2 K [PoolActor.worker 1]
        { counter := c, workers := [w0, { phase := Phase.running, performed := K }],
          joined := joined, result := result } =
      some { counter := c, workers := [w0, { phase := Phase.finished, performed := K }],
             joined := joined, result := result } := by
  simp [poolRun, poolStep, workerStep]

theorem pool_join_step (K : Nat) (c : ConcurrentCounter) (j : Nat) (hj : j < 2)
    (w0 w1 : Worker) (h0 : w0.phase = Phase.finished) (h1 : w1.phase = Phase.finished) :
    poolStep 2 K PoolActor.main
        { counter := c, workers := [w0, w1], joined := j, result := none } =
      some { counter := c, workers := [w0, w1], joined := j + 1, result := none } := by
  have hj' : j = 0 ∨ j = 1 := by omega
  rcases hj' with rfl | rfl <;> simp [poolStep, poolMainStep, h0, h1]

theorem pool_read_step (K : Nat) (c : ConcurrentCounter) (w0 w1 : Worker) :
    poolStep 2 K PoolActor.main
        { counter := c, workers := [w0, w1], joined := 2, result := none } =
      some { counter := c, workers := [w0, w1], joined := 2, result := some c.value } := by
  simp [poolStep, poolMainStep, ConcurrentCounter.read]

theorem poolRun_poolSchedule (K : Nat) :
    poolRun 2 K (poolSchedule K) poolInit =
      some { counter := { value := (K : Int) + K },
             workers := [{ phase := Phase.finished, performed := K },
                         { phase := Phase.finished, performed := K }],
             joined := 2, result := some ((K : Int) + K) } := by
  unfold poolSchedule
  have h1 : poolRun 2 K [PoolActor.main, PoolActor.main] poolInit =
      some { counter := { value := 0 },
             workers := [{ phase := Phase.running, performed := 0 },
                         { phase := Phase.running, performed := 0 }],
             joined := 0, result := none } := by
    simp [poolRun, poolStep, poolMainStep, poolInit, ConcurrentCounter.create]
  rw [poolRun_append, h1, Option.some_bind, poolRun_append,
    pool_worker0_iterations 2 K K 0 0 _ 0 none (by omega),
    Option.some_bind, poolRun_append, zero_add, zero_add,
    pool_worker0_exit K _ _ 0 none, Option.some_bind, poolRun_append,
    pool_worker1_iterations 2 K K K 0 _ _ 0 none (by omega),
    Option.some_bind, poolRun_append, zero_add,
    pool_worker1_exit K _ _ 0 none, Option.some_bind,
    poolRun_cons_of_step _ (pool_join_step K _ 0 (by norm_num) _ _ rfl rfl),
    poolRun_cons_of_step _ (pool_join_step K _ 1 (by norm_num) _ _ rfl rfl),
    poolRun_cons_of_step _ (pool_read_step K _ _ _)]
  rfl

/-- C2 (correctness under concurrency for configurable `T` and `K`): for any
number `T` of workers that each perform `K` increments on the counter of the
specification, in every execution under every schedule a value returned by
`read()` was read after all `T` workers were joined, each of them terminated
after exactly `K` increments, and it equals exactly `T * K`, hence 0 when
`K = 0`; the counter never leaves the range `0 .. T * K`, so it stays within
any integer range that holds `T * K`; and every execution can be continued
until the value has been read and is `T * K`. -/
theorem count_is_T_times_K (T K : Nat) (sched : List PoolActor) (s : PoolState)
    (h : poolRun T K sched poolInit = some s) :
    (∀ v : Int, s.result = some v →
      v = (T : Int) * (K : Int) ∧ (K = 0 → v = 0) ∧ s.joined = T ∧
        s.workers.length = T ∧
        ∀ w ∈ s.workers, w.phase = Phase.finished ∧ w.performed = K) ∧
    (0 ≤ s.counter.value ∧ s.counter.value ≤ (T : Int) * (K : Int)) ∧
    ∃ (more : List PoolActor) (s' : PoolState),
      poolRun T K (sched ++ more) poolInit = some s' ∧
        s'.result = some ((T : Int) * (K : Int)) := by
  have hinv := poolInv_run (poolInv_init T K) h
  refine ⟨?_, pool_counter_bounds hinv, ?_⟩
  · intro v hv
    obtain ⟨e, hj, hl, hall⟩ := pool_result hinv hv
    refine ⟨e, ?_, hj, hl, hall⟩
    intro hz
    rw [e, hz]
    simp
  · obtain ⟨more, s', v, hrun, hv⟩ := pool_can_finish hinv
    have e := (pool_result (poolInv_run hinv hrun) hv).1
    refine ⟨more, s', ?_, ?_⟩
    · rw [poolRun_append, h, Option.some_bind]
      exact hrun
    · rw [hv, e]

theorem count_is_T_times_K_witness :
    poolRun 2 1000000 (poolSchedule 1000000) poolInit =
        some { counter := { value := 2000000 },
               workers := [{ phase := Phase.finished, performed := 1000000 },
                           { phase := Phase.finished, performed := 1000000 }],
               joined := 2, result := some 2000000 } ∧
      (2000000 : Int) = ((2 : Nat) : Int) * ((1000000 : Nat) : Int) := by
  have hrun : poolRun 2 1000000 (poolSchedule 1000000) poolInit =
      some { counter := { value := 2000000 },
             workers := [{ phase := Phase.finished, performed := 1000000 },
                         { phase := Phase.finished, performed := 1000000 }],
             joined := 2, result := some 2000000 } := by
    rw [poolRun_poolSchedule 1000000]
    decide
  exact ⟨hrun,
    ((count_is_T_times_K 2 1000000 (poolSchedule 1000000) _ hrun).1 2000000 rfl).1⟩

end ThreadCounter
